import Mathlib

/-!
# The ISO 8583 line decoder of `server.js`

A shallow embedding of the decoder in `src/server.js`: the header check
(`headerPattern`), the bitmap expansion (`hexa2bin`), the extraction of one field
(`parseField`) and the walk over the bitmap (`parseInputLine`), together with the
pieces of the JavaScript runtime they rely on (`substring`, `charAt`, `parseInt`,
`toString(2)`, `padStart`, `RegExp.prototype.exec/test`).

Exceptions are modelled by `Except ParseError`, the array `fieldsParsed` that
`parseField` mutates is passed and returned explicitly.
-/

namespace IsoParser

/-! ## JavaScript values -/

/-- A JavaScript string as the sequence of its UTF-16 code units; every `Char` of the
list stands for one code unit, so `length` is the `length` property of the string. -/
abbrev JsString := List Char

/-- The JavaScript numbers the decoder handles: an integer (exact, that is below
`2^53` in absolute value; `-0` is identified with `0`), `NaN` (what `parseInt` returns
when it finds no digit) and `-Infinity` (what `Math.log10(0)` returns). -/
inductive JsNum
  | fin (z : Int)
  | nan
  | negInf
  deriving DecidableEq, Repr

/-- The operator `+` on two numbers. -/
def JsNum.add : JsNum → JsNum → JsNum
  | .fin a, .fin b => .fin (a + b)
  | .nan, _ => .nan
  | _, .nan => .nan
  | .negInf, _ => .negInf
  | _, .negInf => .negInf

instance : Add JsNum := ⟨JsNum.add⟩

/-- The clamping of an index argument done by `String.prototype.substring`:
`min(max(ToIntegerOrInfinity(x), 0), len)`, where `NaN` converts to `0`. -/
def clampIndex (len : Nat) : JsNum → Nat
  | .fin z => min z.toNat len
  | .nan => 0
  | .negInf => 0

/-- The method `String.prototype.substring(start, end)`: both indices are clamped to
`0..length`, and they are swapped when `start` is the larger one. -/
def substring (s : JsString) (start stop : JsNum) : JsString :=
  let finalStart := clampIndex s.length start
  let finalEnd := clampIndex s.length stop
  let lo := min finalStart finalEnd
  let hi := max finalStart finalEnd
  (s.drop lo).take (hi - lo)

/-- The method `String.prototype.charAt(pos)` at an integer position: the one-unit string
at that position, or the empty string when the position is out of range. -/
def charAt (s : JsString) (pos : Nat) : JsString :=
  match s[pos]? with
  | some c => [c]
  | none => []

/-- The method `String.prototype.padStart(targetLength, fill)` for a one-unit filler. -/
def padStart (s : JsString) (targetLength : Nat) (fill : Char) : JsString :=
  List.replicate (targetLength - s.length) fill ++ s

/-- The code units that `parseInt` skips at the start of its argument (white space and
line terminators of ECMAScript). -/
def isStrWhiteSpaceChar (c : Char) : Bool :=
  c.toNat ∈ [0x9, 0xA, 0xB, 0xC, 0xD, 0x20, 0xA0, 0x1680, 0x2000, 0x2001, 0x2002, 0x2003,
    0x2004, 0x2005, 0x2006, 0x2007, 0x2008, 0x2009, 0x200A, 0x2028, 0x2029, 0x202F, 0x205F,
    0x3000, 0xFEFF]

/-- The value of a code unit as a digit (`0-9`, then letters of either case for
`10..35`), if it is one. -/
def digitValue (c : Char) : Option Nat :=
  if 48 ≤ c.toNat ∧ c.toNat ≤ 57 then some (c.toNat - 48)
  else if 97 ≤ c.toNat ∧ c.toNat ≤ 122 then some (c.toNat - 87)
  else if 65 ≤ c.toNat ∧ c.toNat ≤ 90 then some (c.toNat - 55)
  else none

/-- Whether a code unit is a digit of the given radix. -/
def isRadixDigit (radix : Nat) (c : Char) : Bool :=
  match digitValue c with
  | some d => decide (d < radix)
  | none => false

/-- The mathematical value of a sequence of digits in the given radix. -/
def digitsValue (radix : Nat) (z : JsString) : Nat :=
  z.foldl (fun acc c => acc * radix + (digitValue c).getD 0) 0

/-- The global function `parseInt(string, radix)`; `radix = 0` stands for an absent radix.
Leading white space is skipped, a sign is read, a `0x`/`0X` mark switches to radix 16
when the radix is absent or 16, and the longest run of digits is converted; the result
is `NaN` when that run is empty. -/
def parseInt (string : JsString) (radix : Nat) : JsNum :=
  let s := string.dropWhile isStrWhiteSpaceChar
  let negative := s.head? = some '-'
  let s := if s.head? = some '-' ∨ s.head? = some '+' then s.tail else s
  if radix ≠ 0 ∧ (radix < 2 ∨ 36 < radix) then .nan
  else
    let hexMark := (radix = 0 ∨ radix = 16) ∧ (s.take 2 = ['0', 'x'] ∨ s.take 2 = ['0', 'X'])
    let r := if hexMark then 16 else if radix = 0 then 10 else radix
    let s := if hexMark then s.drop 2 else s
    let z := s.takeWhile (isRadixDigit r)
    if z = [] then .nan
    else if negative then .fin (-(digitsValue r z : Int))
    else .fin (digitsValue r z)

/-- The method `Number.prototype.toString(2)`. -/
def toStringBinary : JsNum → JsString
  | .fin z => if z < 0 then '-' :: Nat.toDigits 2 z.natAbs else Nat.toDigits 2 z.natAbs
  | .nan => ['N', 'a', 'N']
  | .negInf => ['-', 'I', 'n', 'f', 'i', 'n', 'i', 't', 'y']

/-! ## Regular expressions -/

/-- The fragment of ECMAScript patterns (no flags) used by the decoder and its schema:
character classes, the anchors `^` and `$`, concatenation, alternation and the
quantifier `{lo,hi}` (`hi = none` for an open bound, so `*` is `rep r 0 none`). -/
inductive Regex
  | eps
  | cls (negated : Bool) (ranges : List (Char × Char))
  | bol
  | eol
  | seq (r q : Regex)
  | alt (r q : Regex)
  | rep (r : Regex) (lo : Nat) (hi : Option Nat)

/-- Whether a code unit belongs to a class given by inclusive ranges. -/
def inClass (negated : Bool) (ranges : List (Char × Char)) (c : Char) : Bool :=
  xor negated (ranges.any (fun ab => decide (ab.1.toNat ≤ c.toNat) && decide (c.toNat ≤ ab.2.toNat)))

/-- The positions reached by `k` successive matches, each given by `f`. -/
def iterEnds (f : Nat → List Nat) : Nat → Nat → List Nat
  | 0, i => [i]
  | k + 1, i => (f i).flatMap (iterEnds f k)

/-- All the positions at which a match of the pattern that starts at position `i` of the
input `s` can end (the backtracking matcher of ECMAScript explores every one of them). -/
def Regex.ends (s : JsString) : Regex → Nat → List Nat
  | .eps, i => [i]
  | .cls negated ranges, i =>
    match s[i]? with
    | some c => if inClass negated ranges c then [i + 1] else []
    | none => []
  | .bol, i => if i = 0 then [i] else []
  | .eol, i => if i = s.length then [i] else []
  | .seq r q, i => (Regex.ends s r i).flatMap (Regex.ends s q)
  | .alt r q, i => Regex.ends s r i ++ Regex.ends s q i
  | .rep r lo hi, i =>
    let top := match hi with
      | some h => h
      | none => lo + s.length
    (List.range' lo (top + 1 - lo)).flatMap (fun k => iterEnds (Regex.ends s r) k i)

/-- The method `RegExp.prototype.exec` of a pattern without flags, reduced to the index of
the match it returns: the leftmost position at which the pattern matches, `none` for
`null`. -/
def Regex.exec (r : Regex) (s : JsString) : Option Nat :=
  (List.range (s.length + 1)).find? (fun i => !(Regex.ends s r i).isEmpty)

/-- The method `RegExp.prototype.test`: whether `exec` finds a match. -/
def Regex.test (r : Regex) (s : JsString) : Bool :=
  (Regex.exec r s).isSome

/-- The pattern for one given code unit. -/
def Regex.lit (c : Char) : Regex := .cls false [(c, c)]

/-- The class `\d`. -/
def Regex.digit : Regex := .cls false [('0', '9')]

/-- The class `[0-9A-Fa-f]`. -/
def Regex.hexDigit : Regex := .cls false [('0', '9'), ('A', 'F'), ('a', 'f')]

/-- The constant `headerPattern = /ISO\d{9}\d{4}[0-9A-Fa-f]{16}/`. -/
def headerPattern : Regex :=
  .seq (.lit 'I') (.seq (.lit 'S') (.seq (.lit 'O')
    (.seq (.rep .digit 9 (some 9)) (.seq (.rep .digit 4 (some 4)) (.rep .hexDigit 16 (some 16))))))

/-! ## The data model -/

/-- The class `FieldDef`: the properties set by its constructor (`isVariable` is the
property `variable`, a reserved word here). `pattern` is absent when
`regex` is the empty string. -/
structure FieldDef where
  id : JsNum
  name : JsString
  regex : JsString
  len : JsNum
  isVariable : Bool
  numeric : Bool
  label : JsString
  pattern : Option Regex
  lenOfLen : JsNum

/-- The map `defs`, as the list of its entries; keys are compared as `Map` does. -/
abbrev Defs := List (JsNum × FieldDef)

/-- The method `defs.get(key)`. -/
def Defs.get (defs : Defs) (key : JsNum) : Option FieldDef :=
  (defs.find? (fun e => decide (e.1 = key))).map Prod.snd

/-- The object that `parseField` pushes onto `fieldsParsed`. -/
structure ParsedField where
  fieldNo : Nat
  label : JsString
  length : JsNum
  value : JsString
  deriving DecidableEq

/-- The errors thrown by the decoder, one constructor for each message:
`"Mensaje muy corto"`, `"Cabecera mal formada"`,
`"Mensaje muy corto para contener el bitmap secundario"`,
`"Definición del campo N no encontrada"` and `"El campo N no coincide con el patrón"`. -/
inductive ParseError
  | mensajeMuyCorto
  | cabeceraMalFormada
  | mensajeMuyCortoBitmapSecundario
  | definicionNoEncontrada (fieldNo : Nat)
  | noCoincideConPatron (fieldNo : Nat)
  deriving DecidableEq, Repr

/-! ## The decoder -/

/-- The function `hexa2bin`: every code unit is read by `parseInt(char, 16)`, written in
base 2 and padded to 4 units with `0`. -/
def hexa2bin (hex : JsString) : JsString :=
  (hex.map (fun char => padStart (toStringBinary (parseInt [char] 16)) 4 '0')).flatten

/-- The function `parseField`. The result is what the call returns or throws, paired with
the array `fieldsParsed` as the call leaves it. -/
def parseField (defs : Defs) (fieldNo : Nat) (inputLine : JsString) (currentPointer : JsNum)
    (fieldsParsed : List ParsedField) : Except ParseError JsNum × List ParsedField :=
  match defs.get (.fin fieldNo) with
  | none => (.error (.definicionNoEncontrada fieldNo), fieldsParsed)
  | some field =>
    let efLen :=
      if field.isVariable then
        parseInt (substring inputLine currentPointer (currentPointer + field.lenOfLen)) 0
      else field.len
    let currentPointer :=
      if field.isVariable then currentPointer + field.lenOfLen else currentPointer
    let value := substring inputLine currentPointer (currentPointer + efLen)
    let currentPointer := currentPointer + efLen
    let fieldsParsed := fieldsParsed ++ [⟨fieldNo, field.label, efLen, value⟩]
    match field.pattern with
    | some pattern =>
      if !pattern.test value then (.error (.noCoincideConPatron fieldNo), fieldsParsed)
      else (.ok currentPointer, fieldsParsed)
    | none => (.ok currentPointer, fieldsParsed)

/-- The loop `for (let i = 2; i < fullBitmap.length; i++)` of `parseInputLine`, over the
values of `i` still to come. -/
def walkFields (defs : Defs) (inputLine fullBitmap : JsString) :
    List Nat → JsNum → List ParsedField → Except ParseError JsNum × List ParsedField
  | [], currentPointer, fieldsParsed => (.ok currentPointer, fieldsParsed)
  | i :: rest, currentPointer, fieldsParsed =>
    if charAt fullBitmap i = ['1'] then
      match parseField defs i inputLine currentPointer fieldsParsed with
      | (.ok next, fieldsParsed) => walkFields defs inputLine fullBitmap rest next fieldsParsed
      | (.error e, fieldsParsed) => (.error e, fieldsParsed)
    else walkFields defs inputLine fullBitmap rest currentPointer fieldsParsed

/-- The body of `parseInputLine`, keeping next to its outcome the array `fieldsParsed` as
it stands when the function exits (empty when the function throws before the walk). -/
def parseInputLineRun (defs : Defs) (inputLine : JsString) :
    Except ParseError JsNum × List ParsedField :=
  if inputLine.length < 32 then (.error .mensajeMuyCorto, [])
  else
    let header := substring inputLine (.fin 0) (.fin 32)
    if !headerPattern.test header then (.error .cabeceraMalFormada, [])
    else
      let primaryBitmap := substring header (.fin 16) (.fin 32)
      let binaryPrimaryBitmap := hexa2bin primaryBitmap
      if charAt binaryPrimaryBitmap 0 = ['1'] then
        if inputLine.length < 48 then (.error .mensajeMuyCortoBitmapSecundario, [])
        else
          let secondaryBitmap := substring inputLine (.fin 32) (.fin 48)
          let fullBitmap := '.' :: (binaryPrimaryBitmap ++ hexa2bin secondaryBitmap)
          walkFields defs inputLine fullBitmap (List.range' 2 (fullBitmap.length - 2)) (.fin 48) []
      else
        let fullBitmap := '.' :: binaryPrimaryBitmap
        walkFields defs inputLine fullBitmap (List.range' 2 (fullBitmap.length - 2)) (.fin 32) []

/-- The function `parseInputLine`: the array `fieldsParsed` when the walk completes,
the error thrown otherwise. -/
def parseInputLine (defs : Defs) (inputLine : JsString) : Except ParseError (List ParsedField) :=
  match parseInputLineRun defs inputLine with
  | (.ok _, fieldsParsed) => .ok fieldsParsed
  | (.error e, _) => .error e

/-! ## Loading the schema -/

/-- The method `String.prototype.split(separator)` for a separator of one unit: the pieces
between the occurrences of the separator, the empty string giving one empty piece. -/
def split (sep : Char) : JsString → List JsString
  | [] => [[]]
  | c :: t =>
    if c = sep then [] :: split sep t
    else
      match split sep t with
      | [] => [[c]]
      | piece :: pieces => (c :: piece) :: pieces

/-- The method `String.prototype.trim()`: white space and line terminators are removed at
both ends. -/
def trim (s : JsString) : JsString :=
  ((s.dropWhile isStrWhiteSpaceChar).reverse.dropWhile isStrWhiteSpaceChar).reverse

/-- The search of `ceilLog10Nat`: `p` is `10 ^ k`, and `k` grows until `x ≤ p`. -/
def ceilLog10Loop : Nat → Nat → Nat → Nat → Nat
  | 0, _, _, k => k
  | fuel + 1, x, p, k => if x ≤ p then k else ceilLog10Loop fuel x (p * 10) (k + 1)

/-- The integer `⌈log10 x⌉` for a positive integer `x`. -/
def ceilLog10Nat (x : Nat) : Nat :=
  ceilLog10Loop x x 1 0

/-- The expression `Math.ceil(Math.log10(x))`, whose logarithm is a binary64 number. `NaN`
below 0 and on `NaN`, `-Infinity` at 0. For an integer `1 ≤ x ≤ 10 ^ 14` the result is the
exact `⌈log10 x⌉`: the logarithm of a power of ten is returned exactly, and any other
logarithm there lies more than 20 spacings of binary64 numbers away from the integer below
it. At `x = 10 ^ 15 + 1` the exact logarithm exceeds 15 by a quarter of the spacing
`2 ^ (-49)` only, the logarithm returned is `15` and so is the result, one less than
`⌈log10 x⌉ = 16`. For the other arguments above `10 ^ 14` the result depends on the rounding
of the runtime and is the argument `ceilLog10Large`. -/
def ceilLog10 (ceilLog10Large : Nat → JsNum) : JsNum → JsNum
  | .fin z =>
    if z < 0 then .nan
    else if z = 0 then .negInf
    else if z.toNat ≤ 10 ^ 14 then .fin (ceilLog10Nat z.toNat)
    else if z.toNat = 10 ^ 15 + 1 then .fin 15
    else ceilLog10Large z.toNat
  | .nan => .nan
  | .negInf => .nan

/-- The errors of the schema loader: the error thrown by the constructor of `FieldDef`
(`"Formato incorrecto. Se esperan 6 o 7 campos."`) and the `SyntaxError` thrown by
`new RegExp` on a text that is no pattern. -/
inductive DefError
  | formatoIncorrecto
  | patronInvalido
  deriving DecidableEq, Repr

/-- The constructor of the class `FieldDef`. The constructor `new RegExp(text)` of the
runtime is the argument `newRegExp`: the compiled pattern, or `none` when it throws; the
argument `ceilLog10Large` is the one of `ceilLog10`. -/
def FieldDef.new (newRegExp : JsString → Option Regex)
    (ceilLog10Large : Nat → JsNum) (defLine : JsString) :
    Except DefError FieldDef :=
  let fields := split ',' defLine
  if fields.length < 6 ∨ fields.length > 7 then .error .formatoIncorrecto
  else
    let id := parseInt (trim (fields.getD 0 [])) 0
    let name := trim (fields.getD 1 [])
    let regex := trim (fields.getD 2 [])
    let len := parseInt (trim (fields.getD 3 [])) 0
    let isVariable := decide (trim (fields.getD 4 []) = ['1'])
    let numeric := decide (trim (fields.getD 5 []) = ['1'])
    let label :=
      match fields[6]? with
      | some text => if text = [] then name else trim text
      | none => name
    let lenOfLen := ceilLog10 ceilLog10Large (len + .fin 1)
    if regex = [] then
      .ok { id := id, name := name, regex := regex, len := len, isVariable := isVariable,
            numeric := numeric, label := label, pattern := none, lenOfLen := lenOfLen }
    else
      match newRegExp regex with
      | some pattern =>
        .ok { id := id, name := name, regex := regex, len := len, isVariable := isVariable,
              numeric := numeric, label := label, pattern := some pattern, lenOfLen := lenOfLen }
      | none => .error .patronInvalido

/-- The method `defs.set(key, value)`: the value of an existing key is replaced, a new key
is added. -/
def Defs.set (defs : Defs) (key : JsNum) (value : FieldDef) : Defs :=
  if defs.any (fun e => decide (e.1 = key)) then
    defs.map (fun e => if e.1 = key then (key, value) else e)
  else defs ++ [(key, value)]

/-- The loop `for (let line of lines)` of `readDefinitions`, over the lines still to come;
the result is what the loop returns or throws, paired with the map `defs` as it stands
then. -/
def readDefinitionsLoop (newRegExp : JsString → Option Regex)
    (ceilLog10Large : Nat → JsNum) :
    List JsString → Defs → Except DefError Unit × Defs
  | [], defs => (.ok (), defs)
  | line :: rest, defs =>
    if line.head? = some '#' ∨ trim line = [] then
      readDefinitionsLoop newRegExp ceilLog10Large rest defs
    else
      match FieldDef.new newRegExp ceilLog10Large line with
      | .ok field => readDefinitionsLoop newRegExp ceilLog10Large rest (defs.set field.id field)
      | .error e => (.error e, defs)

/-- The function `readDefinitions`, from the text `data` that `fs.readFileSync` returns
and the global map `defs` as the call finds it. -/
def readDefinitions (newRegExp : JsString → Option Regex)
    (ceilLog10Large : Nat → JsNum) (data : JsString) (defs : Defs) :
    Except DefError Unit × Defs :=
  readDefinitionsLoop newRegExp ceilLog10Large (split '\n' data) defs

/-! ## Notions used to state the properties -/

/-- The decimal digits `0-9`. -/
def isDecimalDigit (c : Char) : Bool :=
  decide (48 ≤ c.toNat) && decide (c.toNat ≤ 57)

/-- The hexadecimal digits of either case. -/
def isHexChar (c : Char) : Bool :=
  isDecimalDigit c || (decide (65 ≤ c.toNat) && decide (c.toNat ≤ 70)) ||
    (decide (97 ≤ c.toNat) && decide (c.toNat ≤ 102))

/-- A text is the decimal numeral of `n`, zero padding allowed: at least one digit, only
decimal digits, and the value `n`. -/
def isDecimalOf (text : JsString) (n : Nat) : Bool :=
  !text.isEmpty && text.all isDecimalDigit && decide (digitsValue 10 text = n)

/-- The header layout that `headerPattern` describes, over the first 32 units of a line:
`ISO`, 13 decimal digits (9 of the base header, 4 of the message type), 16 hexadecimal
digits. -/
def headerShape (line : JsString) : Bool :=
  decide (line.take 3 = ['I', 'S', 'O']) && ((line.drop 3).take 9).all isDecimalDigit &&
    ((line.drop 12).take 4).all isDecimalDigit && ((line.drop 16).take 16).all isHexChar

/-- The header layout with an unconstrained message type: `ISO`, 9 decimal digits, any 4
units, 16 hexadecimal digits. -/
def headerShapeAnyType (line : JsString) : Bool :=
  decide (line.take 3 = ['I', 'S', 'O']) && ((line.drop 3).take 9).all isDecimalDigit &&
    ((line.drop 16).take 16).all isHexChar

/-- The positions `n ≥ 2`, counted from 1 and in ascending order, at which a bit sequence
carries `1`. -/
def setPositions (bits : JsString) : List Nat :=
  (List.range' 2 (bits.length - 1)).filter (fun n => decide (bits[n - 1]? = some '1'))

/-- The combined bit sequence of a line: the expansion of the primary bitmap (units 16 to
31), followed by the expansion of the secondary bitmap (units 32 to 47) when the first
bit of the primary one is `1`. -/
def combinedBitmap (line : JsString) : JsString :=
  let primary := hexa2bin ((line.drop 16).take 16)
  if primary[0]? = some '1' then primary ++ hexa2bin ((line.drop 32).take 16) else primary

/-- The effective length `efLen` that `parseField` computes for a definition at a
pointer. -/
def effectiveLength (field : FieldDef) (inputLine : JsString) (currentPointer : JsNum) : JsNum :=
  if field.isVariable then
    parseInt (substring inputLine currentPointer (currentPointer + field.lenOfLen)) 0
  else field.len

/-- The pointer at which `parseField` starts to read the value: past the length mark of a
variable field. -/
def valueStart (field : FieldDef) (currentPointer : JsNum) : JsNum :=
  if field.isVariable then currentPointer + field.lenOfLen else currentPointer

/-- The `value` that `parseField` extracts for a definition at a pointer. -/
def extractedValue (field : FieldDef) (inputLine : JsString) (currentPointer : JsNum) : JsString :=
  substring inputLine (valueStart field currentPointer)
    (valueStart field currentPointer + effectiveLength field inputLine currentPointer)

/-- The definition of field 2 that the example `2,PAN,^[0-9]{1,19}$,19,1,1,Primary Account Number`
of the specification describes: variable, at most 19 units behind a length mark of 2
digits, with the pattern `^[0-9]{1,19}$`. -/
def panDef : FieldDef :=
  { id := .fin 2, name := "PAN".toList, regex := "^[0-9]\x7b1,19\x7d$".toList, len := .fin 19,
    isVariable := true, numeric := true, label := "Primary Account Number".toList,
    pattern := some (.seq .bol (.seq (.rep .digit 1 (some 19)) .eol)), lenOfLen := .fin 2 }

/-- The definition that the schema line `3,PCODE,^[0-9]{6}$,6,0,1,Processing Code` yields. -/
def processingCodeDef : FieldDef :=
  { id := .fin 3, name := "PCODE".toList, regex := "^[0-9]\x7b6\x7d$".toList, len := .fin 6,
    isVariable := false, numeric := true, label := "Processing Code".toList,
    pattern := some (.seq .bol (.seq (.rep .digit 6 (some 6)) .eol)), lenOfLen := .fin 1 }

/-- The definition that the schema line `4,AMOUNT,,12,0,1,Amount` yields: the pattern is
empty, so no `pattern` is set. -/
def amountDef : FieldDef :=
  { id := .fin 4, name := "AMOUNT".toList, regex := [], len := .fin 12,
    isVariable := false, numeric := true, label := "Amount".toList,
    pattern := none, lenOfLen := .fin 2 }

/-- The definition that the schema line `5,FLAG,[0-9],3,0,0,Flag` yields: its pattern has
no anchor. -/
def flagDef : FieldDef :=
  { id := .fin 5, name := "FLAG".toList, regex := "[0-9]".toList, len := .fin 3,
    isVariable := false, numeric := false, label := "Flag".toList,
    pattern := some .digit, lenOfLen := .fin 1 }

/-- The definition that the schema line `44,ADDL,,25,1,0,Additional Data` yields: a
variable field without pattern, whose length mark has 2 digits. -/
def additionalDataDef : FieldDef :=
  { id := .fin 44, name := "ADDL".toList, regex := [], len := .fin 25,
    isVariable := true, numeric := false, label := "Additional Data".toList,
    pattern := none, lenOfLen := .fin 2 }

/-- Whether an error is one of the two message-too-short errors. -/
def ParseError.isTooShort : ParseError → Bool
  | .mensajeMuyCorto => true
  | .mensajeMuyCortoBitmapSecundario => true
  | _ => false

/-- A field chosen for a message: its number, the text of its length mark (empty for a
field of fixed length) and its value. -/
structure FieldValue where
  fieldNo : Nat
  lenText : JsString
  value : JsString

/-- The units a chosen field contributes to the line. -/
def FieldValue.bytes (f : FieldValue) : JsString :=
  f.lenText ++ f.value

/-- A chosen field satisfies a definition: the value passes the pattern, if any; a fixed
field has exactly `len` units and no length mark; a variable field has at most `len`
units and its length mark is the decimal numeral of the length on `lenOfLen` digits. -/
def FieldValue.satisfies (f : FieldValue) (d : FieldDef) : Bool :=
  (match d.pattern with
    | some p => p.test f.value
    | none => true) &&
  (if d.isVariable then
    (match d.len with
      | .fin m => decide ((f.value.length : Int) ≤ m)
      | _ => false) &&
    decide (d.lenOfLen = .fin f.lenText.length) && isDecimalOf f.lenText f.value.length
  else decide (d.len = .fin f.value.length) && f.lenText.isEmpty)

/-- Every chosen field has a definition in the registry and satisfies it. -/
def allSatisfy (defs : Defs) (fs : List FieldValue) : Bool :=
  fs.all (fun f =>
    match defs.get (.fin f.fieldNo) with
    | some d => f.satisfies d
    | none => false)

/-- The `k` units of `s` from position `i` on exist and all satisfy `p`. -/
def isRun (p : Char → Bool) (s : JsString) (i k : Nat) : Bool :=
  decide (((s.drop i).take k).length = k) && ((s.drop i).take k).all p

/-- The field that the parse is to record for a chosen field: its number, the label of
its definition, the length of the value and the value. -/
def FieldValue.parsed (defs : Defs) (f : FieldValue) : ParsedField :=
  { fieldNo := f.fieldNo,
    label := match defs.get (.fin f.fieldNo) with
      | some d => d.label
      | none => [],
    length := .fin f.value.length,
    value := f.value }

/-- The units that `hexa2bin` yields for one unit of its argument. -/
def expandUnit (char : Char) : JsString :=
  padStart (toStringBinary (parseInt [char] 16)) 4 '0'

/-- The value of a hexadecimal digit of either case. -/
def hexValue (c : Char) : Nat :=
  if c.toNat ≤ 57 then c.toNat - 48 else if c.toNat ≤ 70 then c.toNat - 55 else c.toNat - 87

/-- The binary numeral of a value below 16 on 4 digits, most significant bit first. -/
def nibbleBits (v : Nat) : JsString :=
  [v / 8 % 2, v / 4 % 2, v / 2 % 2, v % 2].map (fun b => if b = 1 then '1' else '0')

/-- A stand-in for the constructor `new RegExp`, defined on the pattern texts of the
examples only. -/
def sampleRegExp (text : JsString) : Option Regex :=
  if text = "^[0-9]+$".toList then some (.seq .bol (.seq (.rep .digit 1 none) .eol))
  else if text = "^[0-9]\x7b6\x7d$".toList then some (.seq .bol (.seq (.rep .digit 6 (some 6)) .eol))
  else if text = "[0-9]".toList then some .digit
  else none

/-- A stand-in for the runtime where `ceilLog10` depends on it, used in the examples, none
of which reaches it. -/
def sampleCeilLog10 (_ : Nat) : JsNum :=
  .nan

/-- The number of decimal digits needed to write a positive integer. -/
def decimalDigitCount (n : Nat) : Nat :=
  (Nat.digits 10 n).length

/-- The decimal numeral of `m` on `k` digits, zero padded (the `k` last digits of `m`). -/
def zeroPadded : Nat → Nat → JsString
  | 0, _ => []
  | k + 1, m => zeroPadded k (m / 10) ++ [Char.ofNat (48 + m % 10)]

/-- The whole of a text is matched by a pattern: some match that starts at position 0
stops exactly where the text stops. -/
def Regex.fullMatch (r : Regex) (s : JsString) : Bool :=
  decide (s.length ∈ Regex.ends s r 0)

/-! ## Auxiliary facts about the runtime functions -/

@[simp] theorem JsNum.fin_add_fin (a b : Int) : (JsNum.fin a + JsNum.fin b) = JsNum.fin (a + b) := rfl

@[simp] theorem clampIndex_fin_nat (len p : Nat) : clampIndex len (.fin (p : Int)) = min p len := by
  simp [clampIndex]

theorem substring_nat (s : JsString) (p n : Nat) :
    substring s (.fin (p : Int)) (.fin ((p : Int) + (n : Int))) = (s.drop p).take n := by
  have h : ((p : Int) + (n : Int)) = ((p + n : Nat) : Int) := by push_cast; rfl
  rw [h]
  simp only [substring, clampIndex_fin_nat]
  by_cases hp : p ≤ s.length
  · have h1 : min (min p s.length) (min (p + n) s.length) = p := by omega
    have h2 : max (min p s.length) (min (p + n) s.length) - p = min n (s.length - p) := by omega
    rw [h1, h2, List.take_eq_take]
    simp
  · have h1 : min (min p s.length) (min (p + n) s.length) = s.length := by omega
    rw [h1]
    rw [List.drop_of_length_le (le_refl _), List.drop_of_length_le (by omega)]
    simp

theorem substring_zero (s : JsString) (n : Nat) :
    substring s (.fin 0) (.fin (n : Int)) = s.take n := by
  have := substring_nat s 0 n
  simpa using this

theorem isDecimalDigit_iff (c : Char) : isDecimalDigit c = true ↔ 48 ≤ c.toNat ∧ c.toNat ≤ 57 := by
  simp [isDecimalDigit]

theorem isStrWhiteSpaceChar_of_digit (c : Char) (h : isDecimalDigit c = true) :
    isStrWhiteSpaceChar c = false := by
  rw [isDecimalDigit_iff] at h
  simp only [isStrWhiteSpaceChar, decide_eq_false_iff_not, List.mem_cons, List.mem_singleton,
    List.not_mem_nil, or_false, not_or]
  omega

theorem isRadixDigit_of_digit (c : Char) (h : isDecimalDigit c = true) :
    isRadixDigit 10 c = true := by
  rw [isDecimalDigit_iff] at h
  simp only [isRadixDigit, digitValue, h, and_self, if_true, decide_eq_true_eq]
  omega

theorem takeWhile_eq_self_of_all {α : Type} (p : α → Bool) (l : List α)
    (h : l.all p = true) : l.takeWhile p = l := by
  induction l with
  | nil => rfl
  | cons a t ih =>
    simp only [List.all_cons, Bool.and_eq_true] at h
    simp [List.takeWhile_cons, h.1, ih h.2]

/-- On a nonempty text of decimal digits, `parseInt` without radix returns its decimal
value. -/
theorem parseInt_digits (ds : JsString) (hne : ds ≠ []) (hall : ds.all isDecimalDigit = true) :
    parseInt ds 0 = .fin (digitsValue 10 ds : Int) := by
  obtain ⟨c, t, rfl⟩ := List.exists_cons_of_ne_nil hne
  have hc : isDecimalDigit c = true := by
    simp only [List.all_cons, Bool.and_eq_true] at hall
    exact hall.1
  have hws := isStrWhiteSpaceChar_of_digit c hc
  have hcn := (isDecimalDigit_iff c).1 hc
  have hminus : c ≠ '-' := by
    rintro rfl
    revert hcn
    decide
  have hplus : c ≠ '+' := by
    rintro rfl
    revert hcn
    decide
  have hmark : ¬ ((c :: t).take 2 = ['0', 'x'] ∨ (c :: t).take 2 = ['0', 'X']) := by
    cases t with
    | nil => simp
    | cons b u =>
      have hb : isDecimalDigit b = true := by
        simp only [List.all_cons, Bool.and_eq_true] at hall
        exact hall.2.1
      have hbn := (isDecimalDigit_iff b).1 hb
      simp only [List.take_succ_cons, List.take_zero, List.cons.injEq, and_true, not_or, not_and]
      constructor
      · rintro _ rfl
        revert hbn
        decide
      · rintro _ rfl
        revert hbn
        decide
  have htw : (c :: t).takeWhile (isRadixDigit 10) = c :: t := by
    apply takeWhile_eq_self_of_all
    rw [List.all_eq_true] at hall ⊢
    intro x hx
    exact isRadixDigit_of_digit x (hall x hx)
  simp only [parseInt, List.dropWhile_cons, hws, Bool.false_eq_true, if_false, List.head?_cons,
    Option.some.injEq, hminus, hplus, or_self, ne_eq, not_true_eq_false, false_and, hmark,
    and_false, if_true, htw, reduceCtorEq]

/-! ## Extraction of one field -/

theorem parseField_variable (defs : Defs) (fieldNo : Nat) (line : JsString) (p k n : Nat)
    (acc : List ParsedField) (d : FieldDef) (hd : defs.get (.fin fieldNo) = some d)
    (hv : d.isVariable = true) (hk : d.lenOfLen = .fin k)
    (hn : parseInt ((line.drop p).take k) 0 = .fin n) :
    parseField defs fieldNo line (.fin p) acc =
      ((match d.pattern with
        | some r =>
          if r.test ((line.drop (p + k)).take n) = true then .ok (.fin ((p + k + n : Nat) : Int))
          else .error (.noCoincideConPatron fieldNo)
        | none => .ok (.fin ((p + k + n : Nat) : Int))),
        acc ++ [⟨fieldNo, d.label, .fin n, (line.drop (p + k)).take n⟩]) := by
  have e1 : substring line (.fin (p : Int)) (.fin ((p : Int) + (k : Int))) = (line.drop p).take k :=
    substring_nat line p k
  have e2 : substring line (.fin ((p : Int) + (k : Int))) (.fin ((p : Int) + (k : Int) + (n : Int))) =
      (line.drop (p + k)).take n := by
    have := substring_nat line (p + k) n
    simpa using this
  have e3 : ((p + k + n : Nat) : Int) = (p : Int) + (k : Int) + (n : Int) := by push_cast; rfl
  simp only [parseField, hd, hv, hk, if_true, JsNum.fin_add_fin, e1, hn, e2, e3]
  cases d.pattern with
  | none => rfl
  | some r => cases h : r.test ((line.drop (p + k)).take n) <;> simp [h]

theorem parseField_fixed (defs : Defs) (fieldNo : Nat) (line : JsString) (p n : Nat)
    (acc : List ParsedField) (d : FieldDef) (hd : defs.get (.fin fieldNo) = some d)
    (hv : d.isVariable = false) (hlen : d.len = .fin n) :
    parseField defs fieldNo line (.fin p) acc =
      ((match d.pattern with
        | some r =>
          if r.test ((line.drop p).take n) = true then .ok (.fin ((p + n : Nat) : Int))
          else .error (.noCoincideConPatron fieldNo)
        | none => .ok (.fin ((p + n : Nat) : Int))),
        acc ++ [⟨fieldNo, d.label, .fin n, (line.drop p).take n⟩]) := by
  have e1 : substring line (.fin (p : Int)) (.fin ((p : Int) + (n : Int))) = (line.drop p).take n :=
    substring_nat line p n
  have e3 : ((p + n : Nat) : Int) = (p : Int) + (n : Int) := by push_cast; rfl
  simp only [parseField, hd, hv, hlen, Bool.false_eq_true, if_false, JsNum.fin_add_fin, e1, e3]
  cases d.pattern with
  | none => rfl
  | some r => cases h : r.test ((line.drop p).take n) <;> simp [h]

/-! ## Facts about the matcher -/

theorem iterEnds_cls (s : JsString) (negated : Bool) (ranges : List (Char × Char)) (k i : Nat) :
    iterEnds (Regex.ends s (.cls negated ranges)) k i =
      if isRun (inClass negated ranges) s i k = true then [i + k] else [] := by
  induction k generalizing i with
  | zero => simp [iterEnds, isRun]
  | succ k ih =>
    have step : iterEnds (Regex.ends s (.cls negated ranges)) (k + 1) i =
        (Regex.ends s (.cls negated ranges) i).flatMap
          (iterEnds (Regex.ends s (.cls negated ranges)) k) := rfl
    have hfun : iterEnds (Regex.ends s (.cls negated ranges)) k =
        fun j => if isRun (inClass negated ranges) s j k = true then [j + k] else [] :=
      funext ih
    have hends : Regex.ends s (.cls negated ranges) i =
        match s[i]? with
        | some c => if inClass negated ranges c then [i + 1] else []
        | none => [] := rfl
    rw [step, hfun, hends]
    cases hget : s[i]? with
    | none =>
      have hle : s.length ≤ i := by
        rw [List.getElem?_eq_none_iff] at hget
        exact hget
      have hdrop : s.drop i = [] := List.drop_of_length_le hle
      simp [isRun, hdrop]
    | some c =>
      have hlt : i < s.length := by
        rcases Nat.lt_or_ge i s.length with h | h
        · exact h
        · rw [List.getElem?_eq_none_iff.2 h] at hget
          cases hget
      have hc : s[i] = c := by
        rw [List.getElem?_eq_getElem hlt] at hget
        exact Option.some.inj hget
      have hdrop : s.drop i = c :: s.drop (i + 1) := by
        rw [← hc]
        exact List.drop_eq_getElem_cons hlt
      cases hin : inClass negated ranges c with
      | false => simp [isRun, hdrop, hin]
      | true =>
        have e : i + 1 + k = i + (k + 1) := by omega
        simp [isRun, hdrop, hin, e]

theorem ends_cls (s : JsString) (negated : Bool) (ranges : List (Char × Char)) (i : Nat) :
    Regex.ends s (.cls negated ranges) i =
      if isRun (inClass negated ranges) s i 1 = true then [i + 1] else [] := by
  rw [← iterEnds_cls]
  simp [iterEnds]

theorem ends_rep_exact (s : JsString) (r : Regex) (k i : Nat) :
    Regex.ends s (.rep r k (some k)) i = iterEnds (Regex.ends s r) k i := by
  simp [Regex.ends]

theorem test_eq_true_iff (r : Regex) (s : JsString) :
    r.test s = true ↔ ∃ i, i ≤ s.length ∧ Regex.ends s r i ≠ [] := by
  simp only [Regex.test, Regex.exec, List.find?_isSome, List.mem_range, Bool.not_eq_true',
    List.isEmpty_eq_false, ne_eq]
  constructor
  · rintro ⟨i, hi, h⟩
    exact ⟨i, by omega, h⟩
  · rintro ⟨i, hi, h⟩
    exact ⟨i, by omega, h⟩

theorem ends_seq_cls (s : JsString) (negated : Bool) (ranges : List (Char × Char)) (q : Regex)
    (i : Nat) :
    Regex.ends s (.seq (.cls negated ranges) q) i =
      if isRun (inClass negated ranges) s i 1 = true then Regex.ends s q (i + 1) else [] := by
  have h : Regex.ends s (.seq (.cls negated ranges) q) i =
      (Regex.ends s (.cls negated ranges) i).flatMap (Regex.ends s q) := rfl
  rw [h, ends_cls]
  split <;> simp

theorem ends_seq_rep_cls (s : JsString) (negated : Bool) (ranges : List (Char × Char))
    (k : Nat) (q : Regex) (i : Nat) :
    Regex.ends s (.seq (.rep (.cls negated ranges) k (some k)) q) i =
      if isRun (inClass negated ranges) s i k = true then Regex.ends s q (i + k) else [] := by
  have h : Regex.ends s (.seq (.rep (.cls negated ranges) k (some k)) q) i =
      (Regex.ends s (.rep (.cls negated ranges) k (some k)) i).flatMap (Regex.ends s q) := rfl
  rw [h, ends_rep_exact, iterEnds_cls]
  split <;> simp

theorem char_eq_of_toNat_eq (a b : Char) (h : a.toNat = b.toNat) : a = b := by
  rw [← Char.ofNat_toNat a, ← Char.ofNat_toNat b, h]

theorem inClass_lit (a c : Char) : inClass false [(a, a)] c = decide (c = a) := by
  by_cases h : c = a
  · subst h
    simp [inClass]
  · have hne : c.toNat ≠ a.toNat := fun e => h (char_eq_of_toNat_eq c a e)
    simp only [inClass, List.any_cons, List.any_nil, Bool.or_false, Bool.false_xor, h,
      decide_False, Bool.and_eq_false_imp, decide_eq_true_eq, decide_eq_false_iff_not]
    omega

theorem inClass_digit : inClass false [('0', '9')] = isDecimalDigit := by
  funext c
  simp [inClass, isDecimalDigit]

theorem inClass_hexDigit : inClass false [('0', '9'), ('A', 'F'), ('a', 'f')] = isHexChar := by
  funext c
  simp [inClass, isHexChar, isDecimalDigit, Bool.or_assoc]

theorem ends_headerPattern (s : JsString) (i : Nat) :
    Regex.ends s headerPattern i =
      if (isRun (fun c => decide (c = 'I')) s i 1 && isRun (fun c => decide (c = 'S')) s (i + 1) 1 &&
          isRun (fun c => decide (c = 'O')) s (i + 2) 1 && isRun isDecimalDigit s (i + 3) 9 &&
          isRun isDecimalDigit s (i + 12) 4 && isRun isHexChar s (i + 16) 16) = true
      then [i + 32] else [] := by
  have hI : inClass false [('I', 'I')] = fun c => decide (c = 'I') := funext (inClass_lit 'I')
  have hS : inClass false [('S', 'S')] = fun c => decide (c = 'S') := funext (inClass_lit 'S')
  have hO : inClass false [('O', 'O')] = fun c => decide (c = 'O') := funext (inClass_lit 'O')
  simp only [headerPattern, Regex.lit, Regex.digit, Regex.hexDigit, ends_seq_cls,
    ends_seq_rep_cls, ends_rep_exact, iterEnds_cls, hI, hS, hO, inClass_digit, inClass_hexDigit]
  by_cases h1 : isRun (fun c => decide (c = 'I')) s i 1 = true <;>
  by_cases h2 : isRun (fun c => decide (c = 'S')) s (i + 1) 1 = true <;>
  by_cases h3 : isRun (fun c => decide (c = 'O')) s (i + 1 + 1) 1 = true <;>
  by_cases h4 : isRun isDecimalDigit s (i + 1 + 1 + 1) 9 = true <;>
  by_cases h5 : isRun isDecimalDigit s (i + 1 + 1 + 1 + 9) 4 = true <;>
  by_cases h6 : isRun isHexChar s (i + 1 + 1 + 1 + 9 + 4) 16 = true <;>
  simp [h1, h2, h3, h4, h5, h6, Nat.add_assoc] at *

theorem isRun_iff (p : Char → Bool) (s : JsString) (i k : Nat) :
    isRun p s i k = true ↔ (k = 0 ∨ i + k ≤ s.length) ∧ ((s.drop i).take k).all p = true := by
  simp only [isRun, Bool.and_eq_true, decide_eq_true_eq, List.length_take, List.length_drop]
  constructor
  · rintro ⟨h1, h2⟩
    exact ⟨by omega, h2⟩
  · rintro ⟨h1, h2⟩
    exact ⟨by omega, h2⟩

theorem take_three_iff (s : JsString) (a b c : Char) :
    s.take 3 = [a, b, c] ↔
      (isRun (fun x => decide (x = a)) s 0 1 = true ∧ isRun (fun x => decide (x = b)) s 1 1 = true ∧
        isRun (fun x => decide (x = c)) s 2 1 = true) := by
  rcases s with _ | ⟨x, _ | ⟨y, _ | ⟨z, t⟩⟩⟩ <;> simp [isRun]

/-- On a text of 32 units the search of `headerPattern` succeeds exactly on the layout
`headerShape`: a match needs 32 units, so it can only start at position 0. -/
theorem headerPattern_test (s : JsString) (hlen : s.length = 32) :
    headerPattern.test s = headerShape s := by
  rw [Bool.eq_iff_iff, test_eq_true_iff]
  simp only [ends_headerPattern, headerShape, Bool.and_eq_true, decide_eq_true_eq, take_three_iff]
  constructor
  · rintro ⟨i, hi, h⟩
    have h6 : isRun isHexChar s (i + 16) 16 = true := by
      by_contra hc
      simp [hc] at h
    have hi0 : i = 0 := by
      have := ((isRun_iff _ _ _ _).1 h6).1
      omega
    subst hi0
    by_contra hc
    apply h
    rw [if_neg]
    intro hall
    apply hc
    simp only [Bool.and_eq_true, zero_add] at hall
    obtain ⟨⟨⟨⟨⟨a1, a2⟩, a3⟩, a4⟩, a5⟩, a6⟩ := hall
    exact ⟨⟨⟨⟨a1, a2, a3⟩, ((isRun_iff _ _ _ _).1 a4).2⟩, ((isRun_iff _ _ _ _).1 a5).2⟩,
      ((isRun_iff _ _ _ _).1 a6).2⟩
  · rintro ⟨⟨⟨⟨a1, a2, a3⟩, a4⟩, a5⟩, a6⟩
    refine ⟨0, by omega, ?_⟩
    have b4 : isRun isDecimalDigit s 3 9 = true := (isRun_iff _ _ _ _).2 ⟨by omega, a4⟩
    have b5 : isRun isDecimalDigit s 12 4 = true := (isRun_iff _ _ _ _).2 ⟨by omega, a5⟩
    have b6 : isRun isHexChar s 16 16 = true := (isRun_iff _ _ _ _).2 ⟨by omega, a6⟩
    simp [a1, a2, a3, b4, b5, b6]

/-! ## The steps of `parseInputLine` before the walk -/

theorem headerShape_take (line : JsString) : headerShape (line.take 32) = headerShape line := by
  simp [headerShape, List.take_take, List.drop_take]

theorem header_test (line : JsString) (hlen : 32 ≤ line.length) :
    headerPattern.test (substring line (.fin 0) (.fin 32)) = headerShape line := by
  have h := substring_zero line 32
  simp only [Nat.cast_ofNat] at h
  rw [h, headerPattern_test _ (by simp [List.length_take]; omega), headerShape_take]

theorem charAt_eq_one (s : JsString) (i : Nat) : charAt s i = ['1'] ↔ s[i]? = some '1' := by
  unfold charAt
  cases s[i]? <;> simp

theorem primary_text (line : JsString) :
    substring (substring line (.fin 0) (.fin 32)) (.fin 16) (.fin 32) = (line.drop 16).take 16 := by
  have h := substring_zero line 32
  simp only [Nat.cast_ofNat] at h
  have h2 := substring_nat (line.take 32) 16 16
  simp only [Nat.cast_ofNat] at h2
  norm_num at h2
  rw [h, h2]
  simp [List.drop_take, List.take_take]

theorem secondary_text (line : JsString) :
    substring line (.fin 32) (.fin 48) = (line.drop 32).take 16 := by
  have h2 := substring_nat line 32 16
  simp only [Nat.cast_ofNat] at h2
  norm_num at h2
  exact h2

/-- The function `parseInputLine` on a line of at least 32 units with a well-formed
header: the walk runs over the positions 2 to the length of the combined bitmap. -/
theorem parseInputLineRun_of_header (defs : Defs) (line : JsString) (hlen : 32 ≤ line.length)
    (hh : headerShape line = true) :
    parseInputLineRun defs line =
      if (hexa2bin ((line.drop 16).take 16))[0]? = some '1' then
        if line.length < 48 then (.error .mensajeMuyCortoBitmapSecundario, [])
        else walkFields defs line ('.' :: combinedBitmap line)
          (List.range' 2 ((combinedBitmap line).length - 1)) (.fin 48) []
      else walkFields defs line ('.' :: combinedBitmap line)
        (List.range' 2 ((combinedBitmap line).length - 1)) (.fin 32) [] := by
  have hl : ¬ line.length < 32 := by omega
  simp only [parseInputLineRun, hl, if_false, header_test line hlen, hh, Bool.not_true,
    Bool.false_eq_true, primary_text, secondary_text, charAt_eq_one, combinedBitmap,
    List.length_cons]
  by_cases hb : (hexa2bin ((line.drop 16).take 16))[0]? = some '1'
  · simp only [hb, if_true]
    rfl
  · simp only [hb, if_false]
    rfl

theorem parseInputLine_bad_header (defs : Defs) (line : JsString) (hlen : 32 ≤ line.length)
    (hh : headerShape line = false) :
    parseInputLineRun defs line = (.error .cabeceraMalFormada, []) := by
  have hl : ¬ line.length < 32 := by omega
  simp [parseInputLineRun, hl, header_test line hlen, hh]

/-! ## Expansion of a bitmap -/

theorem digitValue_none_of_not_alnum (c : Char)
    (h : ¬ ((48 ≤ c.toNat ∧ c.toNat ≤ 57) ∨ (97 ≤ c.toNat ∧ c.toNat ≤ 122) ∨
      (65 ≤ c.toNat ∧ c.toNat ≤ 90))) : digitValue c = none := by
  simp only [not_or] at h
  simp [digitValue, h.1, h.2.1, h.2.2]

/-- The call `parseInt(char, 16)` on a single unit: its value as a hexadecimal digit, or
`NaN`. -/
theorem parseInt_single (c : Char) :
    parseInt [c] 16 = if isRadixDigit 16 c = true then .fin (digitsValue 16 [c] : Int) else .nan := by
  by_cases hws : isStrWhiteSpaceChar c = true
  · have hd : isRadixDigit 16 c = false := by
      have : digitValue c = none := by
        apply digitValue_none_of_not_alnum
        simp only [isStrWhiteSpaceChar, decide_eq_true_eq, List.mem_cons, List.mem_singleton,
          List.not_mem_nil, or_false] at hws
        omega
      simp [isRadixDigit, this]
    simp [parseInt, hws, hd]
  · have hws2 : isStrWhiteSpaceChar c = false := by simpa using hws
    by_cases hm : c = '-'
    · subst hm
      have hd : isRadixDigit 16 '-' = false := by decide
      rw [hd]
      rfl
    · by_cases hp : c = '+'
      · subst hp
        have hd : isRadixDigit 16 '+' = false := by decide
        rw [hd]
        rfl
      · cases hd : isRadixDigit 16 c <;>
          simp [parseInt, hws2, hm, hp, hd, List.takeWhile_cons]

theorem digitsValue_single_lt (c : Char) (h : isRadixDigit 16 c = true) :
    digitsValue 16 [c] < 16 := by
  unfold isRadixDigit at h
  cases hd : digitValue c with
  | none => simp [hd] at h
  | some d =>
    simp only [hd, decide_eq_true_eq] at h
    simp [digitsValue, hd, h]

/-- Every unit of the argument of `hexa2bin` yields exactly 4 units. -/
theorem expand_length (c : Char) :
    (padStart (toStringBinary (parseInt [c] 16)) 4 '0').length = 4 := by
  rw [parseInt_single]
  by_cases hd : isRadixDigit 16 c = true
  · have hlt := digitsValue_single_lt c hd
    simp only [hd, if_true]
    generalize digitsValue 16 [c] = d at hlt
    interval_cases d <;> rfl
  · simp only [hd, Bool.false_eq_true, if_false]
    rfl

theorem hexa2bin_length (hex : JsString) : (hexa2bin hex).length = 4 * hex.length := by
  induction hex with
  | nil => rfl
  | cons c t ih =>
    have h : hexa2bin (c :: t) = padStart (toStringBinary (parseInt [c] 16)) 4 '0' ++ hexa2bin t := rfl
    rw [h, List.length_append, expand_length, ih, List.length_cons]
    omega

theorem hexa2bin_append (a b : JsString) : hexa2bin (a ++ b) = hexa2bin a ++ hexa2bin b := by
  simp [hexa2bin, List.map_append, List.flatten_append]

/-! ## The walk over the bitmap -/

/-- With a definition at hand `parseField` always pushes one field, and then returns the
advanced pointer unless the pattern of the definition finds no match in the value. -/
theorem parseField_eq (defs : Defs) (i : Nat) (line : JsString) (cp : JsNum)
    (acc : List ParsedField) (d : FieldDef) (hd : defs.get (.fin i) = some d) :
    parseField defs i line cp acc =
      ((match d.pattern with
        | some r =>
          if r.test (extractedValue d line cp) = true then
            .ok (valueStart d cp + effectiveLength d line cp)
          else .error (.noCoincideConPatron i)
        | none => .ok (valueStart d cp + effectiveLength d line cp)),
        acc ++ [⟨i, d.label, effectiveLength d line cp, extractedValue d line cp⟩]) := by
  cases hp : d.pattern with
  | none =>
    simp only [parseField, hd, hp]
    rfl
  | some r =>
    by_cases ht : r.test (extractedValue d line cp) = true
    · have ht2 := ht
      simp only [extractedValue, valueStart, effectiveLength] at ht2
      simp only [parseField, hd, hp, ht, ht2, if_true, Bool.not_true, Bool.false_eq_true, if_false]
      rfl
    · have ht2 := ht
      simp only [extractedValue, valueStart, effectiveLength] at ht2
      simp only [parseField, hd, hp, ht, ht2, if_true, Bool.not_false, Bool.false_eq_true,
        if_false, Bool.not_eq_true]
      rfl

theorem parseField_none (defs : Defs) (i : Nat) (line : JsString) (cp : JsNum)
    (acc : List ParsedField) (hd : defs.get (.fin i) = none) :
    parseField defs i line cp acc = (.error (.definicionNoEncontrada i), acc) := by
  simp [parseField, hd]

theorem parseField_ok (defs : Defs) (i : Nat) (line : JsString) (cp next : JsNum)
    (acc acc2 : List ParsedField) (h : parseField defs i line cp acc = (.ok next, acc2)) :
    ∃ f : ParsedField, acc2 = acc ++ [f] ∧ f.fieldNo = i := by
  cases hd : defs.get (.fin i) with
  | none =>
    rw [parseField_none defs i line cp acc hd] at h
    simp at h
  | some d =>
    rw [parseField_eq defs i line cp acc d hd] at h
    simp only [Prod.mk.injEq] at h
    exact ⟨_, h.2.symm, rfl⟩

theorem walkFields_fieldNos (defs : Defs) (line fb : JsString) (is : List Nat) :
    ∀ (cp next : JsNum) (acc acc2 : List ParsedField),
      walkFields defs line fb is cp acc = (.ok next, acc2) →
      acc2.map (fun f => f.fieldNo) =
        acc.map (fun f => f.fieldNo) ++ is.filter (fun i => decide (fb[i]? = some '1')) := by
  induction is with
  | nil =>
    intro cp next acc acc2 h
    simp only [walkFields, Prod.mk.injEq] at h
    simp [h.2]
  | cons i rest ih =>
    intro cp next acc acc2 h
    unfold walkFields at h
    by_cases hb : fb[i]? = some '1'
    · simp only [(charAt_eq_one fb i).2 hb, if_true] at h
      cases hpf : parseField defs i line cp acc with
      | mk res acc1 =>
        cases res with
        | error e => simp [hpf] at h
        | ok nx =>
          simp only [hpf] at h
          obtain ⟨f, hf, hno⟩ := parseField_ok defs i line cp nx acc acc1 hpf
          rw [ih nx next acc1 acc2 h, hf]
          simp [hb, hno]
    · have hc : ¬ charAt fb i = ['1'] := fun e => hb ((charAt_eq_one fb i).1 e)
      simp only [hc, if_false] at h
      rw [ih cp next acc acc2 h]
      simp [hb]

theorem walkFields_append (defs : Defs) (line fb : JsString) (l1 l2 : List Nat) :
    ∀ (cp : JsNum) (acc : List ParsedField),
      walkFields defs line fb (l1 ++ l2) cp acc =
        match walkFields defs line fb l1 cp acc with
        | (.ok next, acc1) => walkFields defs line fb l2 next acc1
        | (.error e, acc1) => (.error e, acc1) := by
  induction l1 with
  | nil => intro cp acc; rfl
  | cons i rest ih =>
    intro cp acc
    simp only [List.cons_append, walkFields]
    by_cases hc : charAt fb i = ['1']
    · simp only [hc, if_true]
      cases hpf : parseField defs i line cp acc with
      | mk res acc1 =>
        cases res with
        | error e => rfl
        | ok nx => exact ih nx acc1
    · simp only [hc, if_false]
      exact ih cp acc

theorem parseField_error (defs : Defs) (i : Nat) (line : JsString) (cp : JsNum)
    (acc : List ParsedField) (e : ParseError)
    (h : (parseField defs i line cp acc).1 = .error e) :
    e = .definicionNoEncontrada i ∨ e = .noCoincideConPatron i := by
  cases hd : defs.get (.fin i) with
  | none =>
    rw [parseField_none defs i line cp acc hd] at h
    simp only [Except.error.injEq] at h
    exact Or.inl h.symm
  | some d =>
    rw [parseField_eq defs i line cp acc d hd] at h
    cases hp : d.pattern with
    | none => simp [hp] at h
    | some r =>
      simp only [hp] at h
      split at h
      · simp at h
      · simp only [Except.error.injEq] at h
        exact Or.inr h.symm

theorem walkFields_error (defs : Defs) (line fb : JsString) (is : List Nat) :
    ∀ (cp : JsNum) (acc : List ParsedField) (e : ParseError),
      (walkFields defs line fb is cp acc).1 = .error e →
      ∃ i, e = .definicionNoEncontrada i ∨ e = .noCoincideConPatron i := by
  induction is with
  | nil =>
    intro cp acc e h
    simp [walkFields] at h
  | cons i rest ih =>
    intro cp acc e h
    unfold walkFields at h
    by_cases hc : charAt fb i = ['1']
    · simp only [hc, if_true] at h
      cases hpf : parseField defs i line cp acc with
      | mk res acc1 =>
        cases res with
        | error e2 =>
          simp only [hpf, Except.error.injEq] at h
          subst h
          exact ⟨i, parseField_error defs i line cp acc e2 (by rw [hpf])⟩
        | ok nx =>
          simp only [hpf] at h
          exact ih nx acc1 e h
    · simp only [hc, if_false] at h
      exact ih cp acc e h

theorem parseInputLine_error_of_run (defs : Defs) (line : JsString) (e : ParseError)
    (acc : List ParsedField) (h : parseInputLineRun defs line = (.error e, acc)) :
    parseInputLine defs line = .error e := by
  simp [parseInputLine, h]

theorem parseInputLine_ok_run (defs : Defs) (line : JsString) (r : List ParsedField)
    (h : parseInputLine defs line = .ok r) :
    ∃ next, parseInputLineRun defs line = (.ok next, r) := by
  unfold parseInputLine at h
  cases hrun : parseInputLineRun defs line with
  | mk res acc =>
    cases res with
    | error e => simp [hrun] at h
    | ok nx =>
      simp only [hrun, Except.ok.injEq] at h
      subst h
      exact ⟨nx, rfl⟩

theorem setPositions_eq_filter (bits : JsString) :
    (List.range' 2 (bits.length - 1)).filter (fun i => decide (('.' :: bits)[i]? = some '1')) =
      setPositions bits := by
  unfold setPositions
  apply List.filter_congr
  intro n hn
  rw [List.mem_range'_1] at hn
  obtain ⟨m, rfl⟩ : ∃ m, n = m + 1 := ⟨n - 1, by omega⟩
  simp

theorem mem_setPositions (bits : JsString) (n : Nat) (h : n ∈ setPositions bits) :
    2 ≤ n ∧ n ≤ bits.length := by
  unfold setPositions at h
  rw [List.mem_filter, List.mem_range'_1] at h
  omega

theorem primary_length (line : JsString) (hlen : 32 ≤ line.length) :
    (hexa2bin ((line.drop 16).take 16)).length = 64 := by
  rw [hexa2bin_length, List.length_take, List.length_drop]
  omega

theorem secondary_length (line : JsString) (hlen : 48 ≤ line.length) :
    (hexa2bin ((line.drop 32).take 16)).length = 64 := by
  rw [hexa2bin_length, List.length_take, List.length_drop]
  omega

theorem combinedBitmap_head (line : JsString) (hlen : 32 ≤ line.length) :
    (combinedBitmap line)[0]? = (hexa2bin ((line.drop 16).take 16))[0]? := by
  unfold combinedBitmap
  simp only
  split
  · rw [List.getElem?_append_left]
    rw [primary_length line hlen]
    omega
  · rfl

/-- A successful parse went through the walk: the line has a well-formed header of 32
units, and 48 units when the first bit announces a secondary bitmap. -/
theorem parseInputLineRun_ok (defs : Defs) (line : JsString) (next : JsNum)
    (r : List ParsedField) (h : parseInputLineRun defs line = (.ok next, r)) :
    32 ≤ line.length ∧ headerShape line = true ∧
      ((combinedBitmap line)[0]? = some '1' → 48 ≤ line.length) ∧
      walkFields defs line ('.' :: combinedBitmap line)
        (List.range' 2 ((combinedBitmap line).length - 1))
        (if (combinedBitmap line)[0]? = some '1' then .fin 48 else .fin 32) [] = (.ok next, r) := by
  have hlen : 32 ≤ line.length := by
    by_contra hc
    have : line.length < 32 := by omega
    simp [parseInputLineRun, this] at h
  have hh : headerShape line = true := by
    cases hs : headerShape line with
    | true => rfl
    | false =>
      rw [parseInputLine_bad_header defs line hlen hs] at h
      simp at h
  rw [parseInputLineRun_of_header defs line hlen hh] at h
  rw [combinedBitmap_head line hlen]
  refine ⟨hlen, hh, ?_, ?_⟩
  · intro hb
    by_contra hc
    have : line.length < 48 := by omega
    simp [hb, this] at h
  · by_cases hb : (hexa2bin ((line.drop 16).take 16))[0]? = some '1'
    · simp only [hb, if_true] at h ⊢
      split at h
      · simp at h
      · exact h
    · simp only [hb, if_false] at h ⊢
      exact h

theorem combinedBitmap_length (line : JsString) (hlen : 32 ≤ line.length)
    (hsec : (combinedBitmap line)[0]? = some '1' → 48 ≤ line.length) :
    (combinedBitmap line).length = if (combinedBitmap line)[0]? = some '1' then 128 else 64 := by
  rw [combinedBitmap_head line hlen] at hsec ⊢
  unfold combinedBitmap
  simp only
  split
  · rename_i hb
    rw [List.length_append, primary_length line hlen, secondary_length line (hsec hb)]
  · exact primary_length line hlen

theorem parseInputLineRun_walk (defs : Defs) (line : JsString) (hlen : 32 ≤ line.length)
    (hh : headerShape line = true)
    (hsec : (combinedBitmap line)[0]? = some '1' → 48 ≤ line.length) :
    parseInputLineRun defs line =
      walkFields defs line ('.' :: combinedBitmap line)
        (List.range' 2 ((combinedBitmap line).length - 1))
        (if (combinedBitmap line)[0]? = some '1' then .fin 48 else .fin 32) [] := by
  rw [parseInputLineRun_of_header defs line hlen hh]
  rw [combinedBitmap_head line hlen] at hsec ⊢
  by_cases hb : (hexa2bin ((line.drop 16).take 16))[0]? = some '1'
  · have : ¬ line.length < 48 := by
      have := hsec hb
      omega
    simp only [hb, if_true, this, if_false]
  · simp only [hb, if_false]

theorem isDecimalOf_iff (text : JsString) (n : Nat) :
    isDecimalOf text n = true ↔
      text ≠ [] ∧ text.all isDecimalDigit = true ∧ digitsValue 10 text = n := by
  simp [isDecimalOf, and_assoc]

theorem parseInt_of_isDecimalOf (text : JsString) (n : Nat) (h : isDecimalOf text n = true) :
    parseInt text 0 = .fin (n : Int) := by
  obtain ⟨h1, h2, h3⟩ := (isDecimalOf_iff text n).1 h
  rw [parseInt_digits text h1 h2, h3]

/-- A pattern of the form `^q$` finds a match exactly when `q` matches the whole text. -/
theorem test_anchored (q : Regex) (v : JsString) :
    (Regex.seq .bol (.seq q .eol)).test v = q.fullMatch v := by
  rw [Bool.eq_iff_iff, test_eq_true_iff]
  have hends : ∀ i, Regex.ends v (.seq .bol (.seq q .eol)) i =
      (if i = 0 then [i] else []).flatMap
        (fun j => (Regex.ends v q j).flatMap (fun e => if e = v.length then [e] else [])) :=
    fun _ => rfl
  simp only [Regex.fullMatch, decide_eq_true_eq, hends]
  constructor
  · rintro ⟨i, -, h⟩
    by_cases hi : i = 0
    · subst hi
      simp only [if_true, List.flatMap_cons, List.flatMap_nil, List.append_nil, ne_eq,
        List.flatMap_eq_nil_iff, not_forall] at h
      obtain ⟨e, he, hne⟩ := h
      by_cases hlen : e = v.length
      · rw [← hlen]
        exact he
      · simp [hlen] at hne
    · simp [hi] at h
  · intro h
    refine ⟨0, by omega, ?_⟩
    simp only [if_true, List.flatMap_cons, List.flatMap_nil, List.append_nil, ne_eq,
      List.flatMap_eq_nil_iff, not_forall]
    exact ⟨v.length, h, by simp⟩

/-! ## Round trip -/

theorem drop_take_mid {α : Type} (a b c : List α) :
    ((a ++ b ++ c).drop a.length).take b.length = b := by
  simp

theorem drop_take_mid_nat {α : Type} (a b c : List α) (m n : Nat) (hm : a.length = m)
    (hn : b.length = n) : ((a ++ b ++ c).drop m).take n = b := by
  subst hm hn
  exact drop_take_mid a b c

/-- The extraction of a chosen field whose units stand at the pointer. -/
theorem parseField_roundtrip (defs : Defs) (f : FieldValue) (line pre post : JsString)
    (acc : List ParsedField)
    (hsat : (match defs.get (.fin f.fieldNo) with
      | some d => f.satisfies d
      | none => false) = true)
    (hline : line = pre ++ f.bytes ++ post) :
    parseField defs f.fieldNo line (.fin pre.length) acc =
      (.ok (.fin ((pre.length + f.bytes.length : Nat) : Int)), acc ++ [f.parsed defs]) := by
  cases hd : defs.get (.fin f.fieldNo) with
  | none => simp [hd] at hsat
  | some d =>
    simp only [hd, FieldValue.satisfies, Bool.and_eq_true] at hsat
    obtain ⟨hpat, hshape⟩ := hsat
    have hparsed : f.parsed defs = ⟨f.fieldNo, d.label, .fin f.value.length, f.value⟩ := by
      simp [FieldValue.parsed, hd]
    cases hv : d.isVariable with
    | true =>
      simp only [hv, if_true, Bool.and_eq_true, decide_eq_true_eq] at hshape
      obtain ⟨⟨-, hk⟩, hdec⟩ := hshape
      have e1 : (line.drop pre.length).take f.lenText.length = f.lenText := by
        rw [hline, FieldValue.bytes, List.append_assoc, List.append_assoc, ← List.append_assoc]
        exact drop_take_mid pre f.lenText (f.value ++ post)
      have e2 : (line.drop (pre.length + f.lenText.length)).take f.value.length = f.value := by
        rw [hline, FieldValue.bytes, ← List.append_assoc pre]
        exact drop_take_mid_nat (pre ++ f.lenText) f.value post _ _ (by simp) rfl
      have hn : parseInt ((line.drop pre.length).take f.lenText.length) 0 =
          .fin (f.value.length : Int) := by
        rw [e1]
        exact parseInt_of_isDecimalOf _ _ hdec
      rw [parseField_variable defs f.fieldNo line pre.length f.lenText.length f.value.length acc d
        hd hv hk hn, e2, hparsed]
      have e3 : pre.length + f.lenText.length + f.value.length = pre.length + f.bytes.length := by
        simp [FieldValue.bytes, Nat.add_assoc]
      rw [e3]
      cases hq : d.pattern with
      | none => rfl
      | some r =>
        simp only [hq] at hpat
        simp [hpat]
    | false =>
      simp only [hv, Bool.false_eq_true, if_false, Bool.and_eq_true, decide_eq_true_eq,
        List.isEmpty_iff] at hshape
      obtain ⟨hlen, hempty⟩ := hshape
      have hb : f.bytes = f.value := by simp [FieldValue.bytes, hempty]
      have e2 : (line.drop pre.length).take f.value.length = f.value := by
        rw [hline, hb]
        exact drop_take_mid pre f.value post
      rw [parseField_fixed defs f.fieldNo line pre.length f.value.length acc d hd hv hlen, e2,
        hparsed, hb]
      cases hq : d.pattern with
      | none => rfl
      | some r =>
        simp only [hq] at hpat
        simp [hpat]

/-- The walk over the positions still to come extracts the chosen fields still to come,
when the units of these fields stand at the pointer. -/
theorem walkFields_roundtrip (defs : Defs) (line fb post : JsString) (is : List Nat) :
    ∀ (fs : List FieldValue) (pre : JsString) (acc : List ParsedField),
      is.filter (fun i => decide (fb[i]? = some '1')) = fs.map (fun f => f.fieldNo) →
      allSatisfy defs fs = true →
      line = pre ++ fs.flatMap FieldValue.bytes ++ post →
      walkFields defs line fb is (.fin pre.length) acc =
        (.ok (.fin ((pre.length + (fs.flatMap FieldValue.bytes).length : Nat) : Int)),
          acc ++ fs.map (FieldValue.parsed defs)) := by
  induction is with
  | nil =>
    intro fs pre acc hf _ _
    have hfs : fs = [] := by
      cases fs with
      | nil => rfl
      | cons f t => simp at hf
    subst hfs
    simp [walkFields]
  | cons i rest ih =>
    intro fs pre acc hf hsat hline
    unfold walkFields
    by_cases hb : fb[i]? = some '1'
    · simp only [(charAt_eq_one fb i).2 hb, if_true]
      rw [List.filter_cons_of_pos (by simpa using hb)] at hf
      cases fs with
      | nil => simp at hf
      | cons f t =>
        simp only [List.map_cons, List.cons.injEq] at hf
        obtain ⟨hi, hrest⟩ := hf
        simp only [allSatisfy, List.all_cons, Bool.and_eq_true] at hsat
        obtain ⟨hsf, hst⟩ := hsat
        have hline2 : line = pre ++ f.bytes ++ (t.flatMap FieldValue.bytes ++ post) := by
          rw [hline]
          simp [List.flatMap_cons, List.append_assoc]
        rw [hi, parseField_roundtrip defs f line pre _ acc hsf hline2]
        have hline3 : line = (pre ++ f.bytes) ++ t.flatMap FieldValue.bytes ++ post := by
          rw [hline]
          simp [List.flatMap_cons, List.append_assoc]
        have := ih t (pre ++ f.bytes) (acc ++ [f.parsed defs]) hrest hst hline3
        simp only [List.length_append] at this
        simp only [this, List.flatMap_cons, List.length_append, List.map_cons, List.append_assoc,
          List.singleton_append, Nat.add_assoc]
    · have hc : ¬ charAt fb i = ['1'] := fun e => hb ((charAt_eq_one fb i).1 e)
      simp only [hc, if_false]
      rw [List.filter_cons_of_neg (by simpa using hb)] at hf
      exact ih fs pre acc hf hsat hline

/-! ## Groups of the expanded bitmap -/

theorem hexa2bin_cons (c : Char) (t : JsString) : hexa2bin (c :: t) = expandUnit c ++ hexa2bin t :=
  rfl

theorem expandUnit_length (c : Char) : (expandUnit c).length = 4 :=
  expand_length c

/-- The group of 4 units at `4 * i` in the expansion comes from the unit `i` of the
argument. -/
theorem hexa2bin_group (s : JsString) :
    ∀ (i : Nat) (c : Char), s[i]? = some c →
      ((hexa2bin s).drop (4 * i)).take 4 = expandUnit c := by
  induction s with
  | nil => intro i c h; simp at h
  | cons a t ih =>
    intro i c h
    rw [hexa2bin_cons]
    cases i with
    | zero =>
      simp only [List.getElem?_cons_zero, Option.some.injEq] at h
      subst h
      have := expandUnit_length a
      simp only [Nat.mul_zero, List.drop_zero]
      rw [← this, List.take_left]
    | succ j =>
      simp only [List.getElem?_cons_succ] at h
      have hl := expandUnit_length a
      have e : 4 * (j + 1) = (expandUnit a).length + 4 * j := by omega
      rw [e, List.drop_append, ih j c h]

theorem char_of_toNat (c : Char) (n : Nat) (h : c.toNat = n) : c = Char.ofNat n := by
  rw [← h, Char.ofNat_toNat]

/-- A hexadecimal digit expands to the 4 binary digits of its value. -/
theorem expandUnit_of_hex (c : Char) (h : isHexChar c = true) :
    expandUnit c = nibbleBits (hexValue c) := by
  obtain ⟨n, hn⟩ : ∃ n, c.toNat = n := ⟨_, rfl⟩
  have hc := char_of_toNat c n hn
  simp only [isHexChar, isDecimalDigit, hn, Bool.or_eq_true, Bool.and_eq_true,
    decide_eq_true_eq] at h
  subst hc
  rcases h with (⟨h1, h2⟩ | ⟨h1, h2⟩) | ⟨h1, h2⟩ <;> interval_cases n <;> rfl

theorem isRadixDigit_hex (c : Char) : isRadixDigit 16 c = isHexChar c := by
  rw [Bool.eq_iff_iff]
  simp only [isRadixDigit, digitValue, isHexChar, isDecimalDigit, Bool.or_eq_true,
    Bool.and_eq_true, decide_eq_true_eq]
  split_ifs <;> simp <;> omega

/-- A unit that is no hexadecimal digit expands to `0NaN`. -/
theorem expandUnit_of_not_hex (c : Char) (h : isHexChar c = false) :
    expandUnit c = ['0', 'N', 'a', 'N'] := by
  unfold expandUnit
  rw [parseInt_single, isRadixDigit_hex, h]
  rfl

/-! ## The length of the length mark -/

theorem self_lt_ten_pow (x : Nat) : x < 10 ^ x := by
  induction x with
  | zero => simp
  | succ n ih =>
    rw [Nat.pow_succ]
    omega

theorem ceilLog10Loop_spec (fuel : Nat) :
    ∀ (x p k : Nat), p = 10 ^ k → x ≤ 10 ^ (k + fuel) → (∀ j, j < k → 10 ^ j < x) →
      x ≤ 10 ^ ceilLog10Loop fuel x p k ∧ ∀ j, j < ceilLog10Loop fuel x p k → 10 ^ j < x := by
  induction fuel with
  | zero =>
    intro x p k _ hx hlow
    exact ⟨by simpa [ceilLog10Loop] using hx, by simpa [ceilLog10Loop] using hlow⟩
  | succ fuel ih =>
    intro x p k hp hx hlow
    unfold ceilLog10Loop
    by_cases hle : x ≤ p
    · simp only [hle, if_true]
      exact ⟨by rw [← hp]; exact hle, hlow⟩
    · simp only [hle, if_false]
      apply ih x (p * 10) (k + 1)
      · rw [hp, Nat.pow_succ]
      · have e : k + 1 + fuel = k + (fuel + 1) := by omega
        rw [e]
        exact hx
      · intro j hj
        rcases Nat.lt_succ_iff_lt_or_eq.1 hj with h | h
        · exact hlow j h
        · subst h
          rw [← hp]
          omega

/-- The search returns the least exponent `k` with `x ≤ 10 ^ k`. -/
theorem ceilLog10Nat_spec (x : Nat) :
    x ≤ 10 ^ ceilLog10Nat x ∧ ∀ j, j < ceilLog10Nat x → 10 ^ j < x := by
  apply ceilLog10Loop_spec x x 1 0 (by simp)
  · simpa using Nat.le_of_lt (self_lt_ten_pow x)
  · intro j hj
    omega

theorem ceilLog10Nat_eq_clog (x : Nat) : ceilLog10Nat x = Nat.clog 10 x := by
  obtain ⟨h1, h2⟩ := ceilLog10Nat_spec x
  apply Nat.le_antisymm
  · by_contra hc
    have hlt : Nat.clog 10 x < ceilLog10Nat x := by omega
    have := h2 _ hlt
    have := Nat.le_pow_clog (by norm_num : 1 < 10) x
    omega
  · exact (Nat.le_pow_iff_clog_le (by norm_num)).1 h1

/-- Up to `10 ^ 14` the model of `Math.ceil(Math.log10(x))` is the exact ceiling. -/
theorem ceilLog10_succ (ceilLog10Large : Nat → JsNum) (n : Nat) (hn : n + 1 ≤ 10 ^ 14) :
    ceilLog10 ceilLog10Large (.fin (n : Int) + .fin 1) = .fin (ceilLog10Nat (n + 1) : Int) := by
  have h1 : ¬ ((n : Int) + 1 < 0) := by omega
  have h2 : ¬ ((n : Int) + 1 = 0) := by omega
  have h3 : ((n : Int) + 1).toNat = n + 1 := by omega
  simp only [JsNum.fin_add_fin, ceilLog10, h1, h2, if_false, h3, hn, if_true]

/-! ## The constructor of `FieldDef` and the loader -/

theorem FieldDef.new_format_error (newRegExp : JsString → Option Regex)
    (ceilLog10Large : Nat → JsNum) (defLine : JsString)
    (h : (split ',' defLine).length ≠ 6 ∧ (split ',' defLine).length ≠ 7) :
    FieldDef.new newRegExp ceilLog10Large defLine = .error .formatoIncorrecto := by
  have hc : (split ',' defLine).length < 6 ∨ (split ',' defLine).length > 7 := by omega
  simp [FieldDef.new, hc]

/-- What a successful construction has set. -/
theorem FieldDef.new_ok (newRegExp : JsString → Option Regex)
    (ceilLog10Large : Nat → JsNum) (defLine : JsString)
    (d : FieldDef) (h : FieldDef.new newRegExp ceilLog10Large defLine = .ok d) :
    ((split ',' defLine).length = 6 ∨ (split ',' defLine).length = 7) ∧
      d.id = parseInt (trim ((split ',' defLine).getD 0 [])) 0 ∧
      d.len = parseInt (trim ((split ',' defLine).getD 3 [])) 0 ∧
      d.lenOfLen = ceilLog10 ceilLog10Large (d.len + .fin 1) := by
  unfold FieldDef.new at h
  simp only at h
  split at h
  · cases h
  · rename_i hc
    refine ⟨by omega, ?_⟩
    split at h
    · simp only [Except.ok.injEq] at h
      subst h
      refine ⟨?_, ?_, ?_⟩ <;> dsimp only
    · split at h
      · simp only [Except.ok.injEq] at h
        subst h
        refine ⟨?_, ?_, ?_⟩ <;> dsimp only
      · cases h

theorem find_map_replace_self (defs : Defs) (key : JsNum) (value : FieldDef)
    (hany : defs.any (fun e => decide (e.1 = key)) = true) :
    (defs.map (fun e => if e.1 = key then (key, value) else e)).find?
      (fun e => decide (e.1 = key)) = some (key, value) := by
  induction defs with
  | nil => simp at hany
  | cons e t ih =>
    by_cases he : e.1 = key
    · simp [he]
    · simp only [List.any_cons, he, decide_False, Bool.false_or] at hany
      simp only [List.map_cons, he, if_false, List.find?_cons, decide_False]
      exact ih hany

theorem find_map_replace_other (defs : Defs) (key other : JsNum) (value : FieldDef)
    (hne : other ≠ key) :
    ((defs.map (fun e => if e.1 = key then (key, value) else e)).find?
      (fun e => decide (e.1 = other))).map Prod.snd =
      (defs.find? (fun e => decide (e.1 = other))).map Prod.snd := by
  have hk : ¬ key = other := fun h => hne h.symm
  induction defs with
  | nil => rfl
  | cons e t ih =>
    by_cases he : e.1 = key
    · have ho : ¬ e.1 = other := fun h => hne (h.symm.trans he)
      simp only [List.map_cons, he, if_true, List.find?_cons, hk, decide_False, ho]
      exact ih
    · simp only [List.map_cons, he, if_false, List.find?_cons]
      by_cases ho : e.1 = other
      · simp [ho]
      · simp only [ho, decide_False]
        exact ih

theorem Defs.get_set_self (defs : Defs) (key : JsNum) (value : FieldDef) :
    (defs.set key value).get key = some value := by
  unfold Defs.set Defs.get
  split
  · rename_i hany
    rw [find_map_replace_self defs key value hany]
    rfl
  · rename_i hany
    simp only [Bool.not_eq_true, List.any_eq_false, decide_eq_true_eq] at hany
    rw [List.find?_append]
    have : defs.find? (fun e => decide (e.1 = key)) = none := by
      rw [List.find?_eq_none]
      intro x hx
      simpa using hany x hx
    simp [this]

theorem Defs.get_set_other (defs : Defs) (key other : JsNum) (value : FieldDef)
    (hne : other ≠ key) : (defs.set key value).get other = defs.get other := by
  unfold Defs.set Defs.get
  split
  · exact find_map_replace_other defs key other value hne
  · rw [List.find?_append]
    have hk : ¬ key = other := fun h => hne h.symm
    simp [hk]

theorem readDefinitionsLoop_append (newRegExp : JsString → Option Regex)
    (ceilLog10Large : Nat → JsNum) (l1 l2 : List JsString) :
    ∀ defs : Defs,
      readDefinitionsLoop newRegExp ceilLog10Large (l1 ++ l2) defs =
        match readDefinitionsLoop newRegExp ceilLog10Large l1 defs with
        | (.ok _, d) => readDefinitionsLoop newRegExp ceilLog10Large l2 d
        | (.error e, d) => (.error e, d) := by
  induction l1 with
  | nil => intro defs; rfl
  | cons line rest ih =>
    intro defs
    simp only [List.cons_append, readDefinitionsLoop]
    split
    · exact ih defs
    · cases FieldDef.new newRegExp ceilLog10Large line with
      | error e => rfl
      | ok field => exact ih _

theorem Defs.get_set (defs : Defs) (key other : JsNum) (value : FieldDef) :
    (defs.set key value).get other = if other = key then some value else defs.get other := by
  by_cases h : other = key
  · subst h
    simp [Defs.get_set_self]
  · simp [h, Defs.get_set_other defs key other value h]

/-- Two registries that agree on the keys of a class still do after the same lines have
been loaded into both, and the two loads end the same way. -/
theorem readDefinitionsLoop_agree (newRegExp : JsString → Option Regex)
    (ceilLog10Large : Nat → JsNum) (P : JsNum → Prop)
    (lines : List JsString) :
    ∀ d1 d2 : Defs, (∀ k, P k → d1.get k = d2.get k) →
      (readDefinitionsLoop newRegExp ceilLog10Large lines d1).1 = (readDefinitionsLoop newRegExp ceilLog10Large lines d2).1 ∧
        ∀ k, P k → (readDefinitionsLoop newRegExp ceilLog10Large lines d1).2.get k =
          (readDefinitionsLoop newRegExp ceilLog10Large lines d2).2.get k := by
  induction lines with
  | nil =>
    intro d1 d2 h
    exact ⟨rfl, h⟩
  | cons line rest ih =>
    intro d1 d2 h
    simp only [readDefinitionsLoop]
    split
    · exact ih d1 d2 h
    · cases FieldDef.new newRegExp ceilLog10Large line with
      | error e => exact ⟨rfl, h⟩
      | ok field =>
        apply ih
        intro k hk
        rw [Defs.get_set, Defs.get_set, h k hk]

/-- A key keeps its definition while the lines loaded define other keys. -/
theorem readDefinitionsLoop_keeps (newRegExp : JsString → Option Regex)
    (ceilLog10Large : Nat → JsNum) (key : JsNum)
    (value : FieldDef) (lines : List JsString) :
    ∀ d : Defs, d.get key = some value →
      (∀ l, l ∈ lines → ¬ (l.head? = some '#' ∨ trim l = []) →
        ∀ f, FieldDef.new newRegExp ceilLog10Large l = .ok f → f.id ≠ key) →
      (readDefinitionsLoop newRegExp ceilLog10Large lines d).2.get key = some value := by
  induction lines with
  | nil =>
    intro d h _
    exact h
  | cons line rest ih =>
    intro d h hother
    simp only [readDefinitionsLoop]
    split
    · exact ih d h (fun l hl => hother l (List.mem_cons_of_mem _ hl))
    · rename_i hskip
      cases hnew : FieldDef.new newRegExp ceilLog10Large line with
      | error e => exact h
      | ok field =>
        apply ih
        · rw [Defs.get_set_other _ _ _ _ (fun e => hother line (List.mem_cons_self _ _) hskip
            field hnew e.symm)]
          exact h
        · exact fun l hl => hother l (List.mem_cons_of_mem _ hl)

theorem readDefinitionsLoop_ok_append (newRegExp : JsString → Option Regex)
    (ceilLog10Large : Nat → JsNum)
    (l1 l2 : List JsString) (d : Defs)
    (hok : (readDefinitionsLoop newRegExp ceilLog10Large (l1 ++ l2) d).1 = .ok ()) :
    (readDefinitionsLoop newRegExp ceilLog10Large l1 d).1 = .ok () ∧
      readDefinitionsLoop newRegExp ceilLog10Large (l1 ++ l2) d =
        readDefinitionsLoop newRegExp ceilLog10Large l2 (readDefinitionsLoop newRegExp ceilLog10Large l1 d).2 := by
  rw [readDefinitionsLoop_append] at hok ⊢
  cases h1 : readDefinitionsLoop newRegExp ceilLog10Large l1 d with
  | mk res d1 =>
    cases res with
    | error e => simp [h1] at hok
    | ok u => exact ⟨rfl, rfl⟩

theorem readDefinitionsLoop_cons_ok (newRegExp : JsString → Option Regex)
    (ceilLog10Large : Nat → JsNum) (line : JsString)
    (rest : List JsString) (d : Defs) (f : FieldDef)
    (hline : ¬ (line.head? = some '#' ∨ trim line = []))
    (hnew : FieldDef.new newRegExp ceilLog10Large line = .ok f) :
    readDefinitionsLoop newRegExp ceilLog10Large (line :: rest) d =
      readDefinitionsLoop newRegExp ceilLog10Large rest (d.set f.id f) := by
  simp only [readDefinitionsLoop, hline, if_false, hnew]

/-- For a length below `10 ^ 14` the constructor sets `lenOfLen` to the exact ceiling of the
logarithm of `len + 1`. -/
theorem FieldDef.new_lenOfLen (newRegExp : JsString → Option Regex)
    (ceilLog10Large : Nat → JsNum) (defLine : JsString) (d : FieldDef) (n : Nat)
    (hnew : FieldDef.new newRegExp ceilLog10Large defLine = .ok d)
    (hlen : d.len = .fin (n : Int)) (hn : n < 10 ^ 14) :
    d.lenOfLen = .fin (ceilLog10Nat (n + 1) : Int) := by
  obtain ⟨-, -, -, hl⟩ := FieldDef.new_ok newRegExp ceilLog10Large defLine d hnew
  rw [hlen, ceilLog10_succ ceilLog10Large n (by omega)] at hl
  exact hl

theorem clog_ten_pow_fifteen_succ : Nat.clog 10 (10 ^ 15 + 1) = 16 := by
  apply Nat.le_antisymm
  · exact (Nat.le_pow_iff_clog_le (by norm_num)).1 (by norm_num)
  · exact (Nat.pow_lt_iff_lt_clog (by norm_num)).1 (by norm_num)

/-! ## Decimal numerals of a given width -/

theorem digit_char (r : Nat) (h : r < 10) :
    isDecimalDigit (Char.ofNat (48 + r)) = true ∧ digitValue (Char.ofNat (48 + r)) = some r := by
  interval_cases r <;> exact ⟨by rfl, by rfl⟩

theorem digitsValue_append_single (a : JsString) (c : Char) :
    digitsValue 10 (a ++ [c]) = digitsValue 10 a * 10 + (digitValue c).getD 0 := by
  simp [digitsValue, List.foldl_append]

theorem zeroPadded_spec (k : Nat) :
    ∀ m : Nat, (zeroPadded k m).length = k ∧ (zeroPadded k m).all isDecimalDigit = true ∧
      digitsValue 10 (zeroPadded k m) = m % 10 ^ k := by
  induction k with
  | zero =>
    intro m
    simp [zeroPadded, digitsValue, Nat.mod_one]
  | succ k ih =>
    intro m
    obtain ⟨h1, h2, h3⟩ := ih (m / 10)
    obtain ⟨d1, d2⟩ := digit_char (m % 10) (Nat.mod_lt _ (by norm_num))
    refine ⟨by simp [zeroPadded, h1], ?_, ?_⟩
    · simp only [zeroPadded, List.all_append, h2, List.all_cons, d1, List.all_nil, Bool.and_self]
    · rw [zeroPadded, digitsValue_append_single, h3, d2, Option.getD_some, Nat.pow_succ]
      have e1 := Nat.mod_mul_right_div_self m 10 (10 ^ k)
      have e2 := Nat.div_add_mod (m % (10 * 10 ^ k)) 10
      have e3 : m % (10 * 10 ^ k) % 10 = m % 10 := Nat.mod_mul_right_mod m 10 (10 ^ k)
      rw [Nat.mul_comm (10 ^ k) 10]
      omega

theorem digitsValue_lt (text : JsString) (hall : text.all isDecimalDigit = true) :
    digitsValue 10 text < 10 ^ text.length := by
  induction text using List.reverseRecOn with
  | nil => simp [digitsValue]
  | append_singleton l c ih =>
    simp only [List.all_append, List.all_cons, List.all_nil, Bool.and_true,
      Bool.and_eq_true] at hall
    have h1 := ih hall.1
    have hc := (isDecimalDigit_iff c).1 hall.2
    have hv : (digitValue c).getD 0 ≤ 9 := by
      simp only [digitValue, hc, and_self, if_true, Option.getD_some]
      omega
    rw [digitsValue_append_single, List.length_append, List.length_singleton, Nat.pow_succ]
    omega

/-! ## The pointer during the walk -/

theorem parseField_extends (defs : Defs) (i : Nat) (line : JsString) (cp : JsNum)
    (acc : List ParsedField) : ∃ more, (parseField defs i line cp acc).2 = acc ++ more := by
  cases hd : defs.get (.fin i) with
  | none => exact ⟨[], by rw [parseField_none defs i line cp acc hd]; simp⟩
  | some d => exact ⟨_, by rw [parseField_eq defs i line cp acc d hd]⟩

theorem walkFields_extends (defs : Defs) (line fb : JsString) (is : List Nat) :
    ∀ (cp : JsNum) (acc : List ParsedField) (res : Except ParseError JsNum)
      (acc2 : List ParsedField),
      walkFields defs line fb is cp acc = (res, acc2) → ∃ more, acc2 = acc ++ more := by
  induction is with
  | nil =>
    intro cp acc res acc2 h
    simp only [walkFields, Prod.mk.injEq] at h
    exact ⟨[], by simp [h.2]⟩
  | cons i rest ih =>
    intro cp acc res acc2 h
    unfold walkFields at h
    by_cases hc : charAt fb i = ['1']
    · simp only [hc, if_true] at h
      obtain ⟨m, hm⟩ := parseField_extends defs i line cp acc
      cases hpf : parseField defs i line cp acc with
      | mk r1 acc1 =>
        rw [hpf] at hm
        simp only at hm
        cases r1 with
        | error e =>
          simp only [hpf, Prod.mk.injEq] at h
          exact ⟨m, by rw [← h.2, hm]⟩
        | ok nx =>
          simp only [hpf] at h
          obtain ⟨more, hmore⟩ := ih nx acc1 res acc2 h
          exact ⟨m ++ more, by rw [hmore, hm, List.append_assoc]⟩
    · simp only [hc, if_false] at h
      exact ih cp acc res acc2 h

/-- A call made with an integer pointer, for a definition with a natural `lenOfLen` when
variable, that records a natural length returns an integer pointer not below the one
passed in. -/
theorem parseField_pointer (defs : Defs) (i : Nat) (line : JsString) (p : Int)
    (acc acc2 : List ParsedField) (next : JsNum)
    (hreg : ∀ d, defs.get (.fin i) = some d → d.isVariable = true →
      ∃ k : Nat, d.lenOfLen = .fin (k : Int))
    (h : parseField defs i line (.fin p) acc = (.ok next, acc2))
    (hnat : ∀ f, f ∈ acc2.drop acc.length → ∃ e : Nat, f.length = .fin (e : Int)) :
    ∃ q : Int, next = .fin q ∧ p ≤ q := by
  cases hd : defs.get (.fin i) with
  | none =>
    rw [parseField_none defs i line (.fin p) acc hd] at h
    simp at h
  | some d =>
    rw [parseField_eq defs i line (.fin p) acc d hd] at h
    simp only [Prod.mk.injEq] at h
    obtain ⟨hres, hacc⟩ := h
    obtain ⟨e, he⟩ := hnat ⟨i, d.label, effectiveLength d line (.fin p),
      extractedValue d line (.fin p)⟩ (by rw [← hacc]; simp)
    simp only at he
    rw [he] at hres
    have hnext : next = valueStart d (.fin p) + .fin (e : Int) := by
      cases hp : d.pattern with
      | none =>
        simp only [hp, Except.ok.injEq] at hres
        exact hres.symm
      | some r =>
        simp only [hp] at hres
        split at hres
        · simp only [Except.ok.injEq] at hres
          exact hres.symm
        · simp at hres
    cases hv : d.isVariable with
    | true =>
      obtain ⟨k, hk⟩ := hreg d hd hv
      refine ⟨p + k + e, ?_, by omega⟩
      rw [hnext]
      simp [valueStart, hv, hk]
    | false =>
      refine ⟨p + e, ?_, by omega⟩
      rw [hnext]
      simp [valueStart, hv]

/-- A walk that starts with an integer pointer and records natural lengths only ends with
an integer pointer not below the one it started with. -/
theorem walkFields_pointer (defs : Defs) (line fb : JsString)
    (hreg : ∀ i d, defs.get (.fin i) = some d → d.isVariable = true →
      ∃ k : Nat, d.lenOfLen = .fin (k : Int)) (is : List Nat) :
    ∀ (p : Int) (acc acc2 : List ParsedField) (next : JsNum),
      walkFields defs line fb is (.fin p) acc = (.ok next, acc2) →
      (∀ f, f ∈ acc2.drop acc.length → ∃ e : Nat, f.length = .fin (e : Int)) →
      ∃ q : Int, next = .fin q ∧ p ≤ q := by
  induction is with
  | nil =>
    intro p acc acc2 next h _
    simp only [walkFields, Prod.mk.injEq, Except.ok.injEq] at h
    exact ⟨p, h.1.symm, le_refl p⟩
  | cons i rest ih =>
    intro p acc acc2 next h hnat
    unfold walkFields at h
    by_cases hc : charAt fb i = ['1']
    · simp only [hc, if_true] at h
      cases hpf : parseField defs i line (.fin p) acc with
      | mk r1 acc1 =>
        cases r1 with
        | error e => simp [hpf] at h
        | ok nx =>
          simp only [hpf] at h
          obtain ⟨m, hm⟩ := parseField_extends defs i line (.fin p) acc
          rw [hpf] at hm
          simp only at hm
          obtain ⟨more, hmore⟩ := walkFields_extends defs line fb rest nx acc1 _ acc2 h
          have hsub1 : ∀ f, f ∈ acc1.drop acc.length → f ∈ acc2.drop acc.length := by
            intro f hf
            rw [hmore, hm, List.append_assoc, List.drop_left] at *
            exact List.mem_append_left _ hf
          have hsub2 : ∀ f, f ∈ acc2.drop acc1.length → f ∈ acc2.drop acc.length := by
            intro f hf
            rw [hmore, List.drop_left] at hf
            rw [hmore, hm, List.append_assoc, List.drop_left]
            exact List.mem_append_right _ hf
          obtain ⟨q1, hq1, hle1⟩ := parseField_pointer defs i line p acc acc1 nx (hreg i) hpf
            (fun f hf => hnat f (hsub1 f hf))
          subst hq1
          obtain ⟨q, hq, hle⟩ := ih q1 acc1 acc2 next h (fun f hf => hnat f (hsub2 f hf))
          exact ⟨q, hq, by omega⟩
    · simp only [hc, if_false] at h
      exact ih p acc acc2 next h hnat

/-! ## The properties of the decoder -/

/-- C1: round trip. For every registry and every list of chosen fields that all have a
definition and satisfy it (a fixed field has exactly `len` units; a variable field has at
most `len` units and is preceded by its length as a decimal numeral of `lenOfLen` digits;
the value passes the pattern), the line made of a valid header of 32 units (16 units, then
the primary bitmap), the secondary bitmap when bit 1 is set, with exactly the bits of the
chosen field numbers set from position 2 on, and then the units of the fields in ascending
order, is parsed successfully by `parseInputLine`; the values of the result are the
original values in order, and their count is the number of set bits apart from bit 1. -/
theorem parse_built_line (defs : Defs) (hdr primary secondary : JsString)
    (fs : List FieldValue) (hh16 : hdr.length = 16) (hp16 : primary.length = 16)
    (hhdr : headerPattern.test (hdr ++ primary) = true)
    (hsec : if (hexa2bin primary)[0]? = some '1' then secondary.length = 16 else secondary = [])
    (hbits : setPositions (hexa2bin (primary ++ secondary)) = fs.map (fun f => f.fieldNo))
    (hsat : allSatisfy defs fs = true) :
    ∃ r, parseInputLine defs (hdr ++ primary ++ secondary ++ fs.flatMap FieldValue.bytes) = .ok r ∧
      r.map (fun x => x.value) = fs.map (fun f => f.value) ∧
      r.map (fun x => x.fieldNo) = fs.map (fun f => f.fieldNo) ∧
      r.length = (setPositions (hexa2bin (primary ++ secondary))).length := by
  have hline : hdr ++ primary ++ secondary ++ fs.flatMap FieldValue.bytes =
      hdr ++ primary ++ (secondary ++ fs.flatMap FieldValue.bytes) := by
    simp [List.append_assoc]
  have hlen : 32 ≤ (hdr ++ primary ++ secondary ++ fs.flatMap FieldValue.bytes).length := by
    simp only [List.length_append, hh16, hp16]
    omega
  have htake : (hdr ++ primary ++ secondary ++ fs.flatMap FieldValue.bytes).take 32 =
      hdr ++ primary := by
    rw [hline]
    have : (hdr ++ primary).length = 32 := by simp [hh16, hp16]
    rw [← this, List.take_left]
  have hshape : headerShape (hdr ++ primary ++ secondary ++ fs.flatMap FieldValue.bytes) = true := by
    rw [← headerShape_take, htake, ← headerPattern_test _ (by simp [hh16, hp16])]
    exact hhdr
  have hprim : ((hdr ++ primary ++ secondary ++ fs.flatMap FieldValue.bytes).drop 16).take 16 =
      primary := by
    rw [hline]
    exact drop_take_mid_nat hdr primary _ 16 16 hh16 hp16
  have hcomb : combinedBitmap (hdr ++ primary ++ secondary ++ fs.flatMap FieldValue.bytes) =
      hexa2bin (primary ++ secondary) := by
    unfold combinedBitmap
    simp only [hprim]
    by_cases hb : (hexa2bin primary)[0]? = some '1'
    · simp only [hb, if_true] at hsec ⊢
      rw [drop_take_mid_nat (hdr ++ primary) secondary _ 32 16 (by simp [hh16, hp16]) hsec,
        hexa2bin_append]
    · simp only [hb, if_false] at hsec ⊢
      rw [hsec, List.append_nil]
  have hhead : (hexa2bin (primary ++ secondary))[0]? = (hexa2bin primary)[0]? := by
    rw [hexa2bin_append, List.getElem?_append_left]
    rw [hexa2bin_length, hp16]
    omega
  have hprelen : (hdr ++ primary ++ secondary).length =
      if (hexa2bin primary)[0]? = some '1' then 48 else 32 := by
    by_cases hb : (hexa2bin primary)[0]? = some '1'
    · simp only [hb, if_true] at hsec ⊢
      simp [hh16, hp16, hsec]
    · simp only [hb, if_false] at hsec ⊢
      simp [hh16, hp16, hsec]
  have hsec48 : (combinedBitmap (hdr ++ primary ++ secondary ++ fs.flatMap FieldValue.bytes))[0]? =
      some '1' → 48 ≤ (hdr ++ primary ++ secondary ++ fs.flatMap FieldValue.bytes).length := by
    intro hb
    rw [hcomb, hhead] at hb
    rw [List.length_append, hprelen, if_pos hb]
    omega
  have hrun := parseInputLineRun_walk defs _ hlen hshape hsec48
  rw [hcomb, hhead] at hrun
  have hstart : (if (hexa2bin primary)[0]? = some '1' then JsNum.fin 48 else JsNum.fin 32) =
      .fin ((hdr ++ primary ++ secondary).length : Int) := by
    rw [hprelen]
    split <;> rfl
  rw [hstart] at hrun
  have hwalk := walkFields_roundtrip defs
    (hdr ++ primary ++ secondary ++ fs.flatMap FieldValue.bytes)
    ('.' :: hexa2bin (primary ++ secondary)) []
    (List.range' 2 ((hexa2bin (primary ++ secondary)).length - 1)) fs
    (hdr ++ primary ++ secondary) []
    (by rw [setPositions_eq_filter]; exact hbits) hsat (by simp)
  rw [hwalk] at hrun
  refine ⟨fs.map (FieldValue.parsed defs), ?_, ?_, ?_, ?_⟩
  · unfold parseInputLine
    rw [hrun]
    rfl
  · simp [FieldValue.parsed, Function.comp_def]
  · simp [FieldValue.parsed, Function.comp_def]
  · rw [hbits]
    simp

/-- C1, instance: the fields 2 (variable, `06` then `123456`) and 3 (fixed, `001000`) behind
the header `ISO1234567890200` and the primary bitmap `6000000000000000`. -/
theorem parse_built_line_witness :
    ∃ r, parseInputLine [(.fin 2, panDef), (.fin 3, processingCodeDef)]
        ("ISO1234567890200".toList ++ "6000000000000000".toList ++ [] ++
          [(⟨2, "06".toList, "123456".toList⟩ : FieldValue),
            ⟨3, [], "001000".toList⟩].flatMap FieldValue.bytes) = .ok r ∧
      r.map (fun x => x.value) = ["123456".toList, "001000".toList] :=
  (parse_built_line [(.fin 2, panDef), (.fin 3, processingCodeDef)] "ISO1234567890200".toList
    "6000000000000000".toList []
    [⟨2, "06".toList, "123456".toList⟩, ⟨3, [], "001000".toList⟩]
    (by decide) (by decide) (by rfl) (by decide) (by rfl) (by rfl)).imp
    (fun _ h => ⟨h.1, h.2.1⟩)

/-- C2: for every line that `parseInputLine` parses successfully, the field numbers of the
result are exactly the positions `n ≥ 2`, in strictly ascending order, whose bit is `1`
in the combined bitmap counted from 1; that bitmap has 64 bits, or 128 when bit 1 is set
and the secondary bitmap is appended; position 1 is never a field, and without secondary
bitmap no field number exceeds 64. -/
theorem parsed_fieldNos_are_set_positions (defs : Defs) (line : JsString)
    (r : List ParsedField) (h : parseInputLine defs line = .ok r) :
    r.map (fun f => f.fieldNo) = setPositions (combinedBitmap line) ∧
      (r.map (fun f => f.fieldNo)).Pairwise (fun a b => a < b) ∧
      1 ∉ r.map (fun f => f.fieldNo) ∧
      (combinedBitmap line).length = (if (combinedBitmap line)[0]? = some '1' then 128 else 64) ∧
      ((combinedBitmap line)[0]? ≠ some '1' → ∀ n ∈ r.map (fun f => f.fieldNo), n ≤ 64) := by
  obtain ⟨next, hrun⟩ := parseInputLine_ok_run defs line r h
  obtain ⟨hlen, -, hsec, hwalk⟩ := parseInputLineRun_ok defs line next r hrun
  have hnos := walkFields_fieldNos defs line _ _ _ _ _ _ hwalk
  rw [setPositions_eq_filter] at hnos
  simp only [List.map_nil, List.nil_append] at hnos
  have hL := combinedBitmap_length line hlen hsec
  refine ⟨hnos, ?_, ?_, hL, ?_⟩
  · rw [hnos]
    unfold setPositions
    exact List.Pairwise.filter _ (List.pairwise_lt_range' 2 _)
  · rw [hnos]
    intro h1
    have := mem_setPositions _ _ h1
    omega
  · intro hb n hn
    rw [hnos] at hn
    have := mem_setPositions _ _ hn
    rw [hL, if_neg hb] at this
    exact this.2

/-- C2, instance: a line with bits 2 and 3 set, parsed with the definitions of fields 2 and
3. -/
theorem parsed_fieldNos_are_set_positions_witness :
    parseInputLine [(.fin 2, panDef), (.fin 3, processingCodeDef)]
        "ISO1234567890200600000000000000006123456001000".toList =
      .ok [⟨2, "Primary Account Number".toList, .fin 6, "123456".toList⟩,
        ⟨3, "Processing Code".toList, .fin 6, "001000".toList⟩] ∧
    [2, 3] = setPositions (combinedBitmap "ISO1234567890200600000000000000006123456001000".toList) :=
  ⟨rfl, (parsed_fieldNos_are_set_positions [(.fin 2, panDef), (.fin 3, processingCodeDef)]
    "ISO1234567890200600000000000000006123456001000".toList _ rfl).1⟩

/-- C3, counterexample: the length mark `06` is followed by the 6 units `12a456`, which the
pattern of field 2 rejects; `parseField` records the field and throws instead of returning
the pointer advanced by 8. -/
theorem variable_field_pattern_mismatch :
    panDef.isVariable = true ∧ panDef.lenOfLen = .fin 2 ∧
      isDecimalOf (("0612a456".toList.drop 0).take 2) 6 = true ∧
      0 + 2 + 6 ≤ "0612a456".toList.length ∧
      parseField [(.fin 2, panDef)] 2 "0612a456".toList (.fin 0) [] =
        (.error (.noCoincideConPatron 2),
          [⟨2, "Primary Account Number".toList, .fin 6, "12a456".toList⟩]) :=
  ⟨rfl, rfl, by rfl, by decide, by rfl⟩

/-- C3 (amended): for every variable-length definition, line and pointer such that the
`lenOfLen` units at the pointer are decimal digits denoting `n` and at least `n` units
follow them, `parseField` records a field with length `n` and value the `n` units after the
length mark; it returns pointer + `lenOfLen` + `n` when the definition has no pattern or
the pattern finds a match in the value, and throws the pattern-mismatch error otherwise. -/
theorem variable_field_extraction (defs : Defs) (i : Nat) (line : JsString) (p k n : Nat)
    (acc : List ParsedField) (d : FieldDef) (hd : defs.get (.fin i) = some d)
    (hv : d.isVariable = true) (hk : d.lenOfLen = .fin k)
    (hdigits : isDecimalOf ((line.drop p).take k) n = true) (hfit : p + k + n ≤ line.length) :
    (parseField defs i line (.fin p) acc).2 =
        acc ++ [⟨i, d.label, .fin n, (line.drop (p + k)).take n⟩] ∧
      ((line.drop (p + k)).take n).length = n ∧
      ((∀ r, d.pattern = some r → r.test ((line.drop (p + k)).take n) = true) →
        (parseField defs i line (.fin p) acc).1 = .ok (.fin ((p + k + n : Nat) : Int))) ∧
      (∀ r, d.pattern = some r → r.test ((line.drop (p + k)).take n) = false →
        (parseField defs i line (.fin p) acc).1 = .error (.noCoincideConPatron i)) := by
  have hn := parseInt_of_isDecimalOf _ _ hdigits
  rw [parseField_variable defs i line p k n acc d hd hv hk hn]
  refine ⟨rfl, ?_, ?_, ?_⟩
  · rw [List.length_take, List.length_drop]
    omega
  · intro hp
    cases hpat : d.pattern with
    | none => rfl
    | some r => simp [hp r hpat]
  · intro r hpat ht
    simp [hpat, ht]

/-- C3 (amended), instance: field 2 with `len` 19 and `lenOfLen` 2, the pointer at
`06123456`: the field of length 6 and value `123456` is recorded and the pointer advances
by 8. -/
theorem variable_field_extraction_witness :
    (parseField [(.fin 2, panDef)] 2 "06123456".toList (.fin 0) []).2 =
        [⟨2, "Primary Account Number".toList, .fin 6, "123456".toList⟩] ∧
      (parseField [(.fin 2, panDef)] 2 "06123456".toList (.fin 0) []).1 = .ok (.fin 8) :=
  ⟨(variable_field_extraction [(.fin 2, panDef)] 2 "06123456".toList 0 2 6 [] panDef rfl rfl rfl
      (by rfl) (by decide)).1,
    (variable_field_extraction [(.fin 2, panDef)] 2 "06123456".toList 0 2 6 [] panDef rfl rfl rfl
      (by rfl) (by decide)).2.2.1 (by
        intro r hr
        obtain rfl : _ = r := Option.some.inj hr
        rfl)⟩

/-- C4, counterexample: the 6 units `12a456` at the pointer are rejected by the pattern of
the fixed-length field 3; `parseField` records the field and throws instead of returning the
pointer advanced by 6. -/
theorem fixed_field_pattern_mismatch :
    processingCodeDef.isVariable = false ∧ processingCodeDef.len = .fin 6 ∧
      0 + 6 ≤ "12a456".toList.length ∧
      parseField [(.fin 3, processingCodeDef)] 3 "12a456".toList (.fin 0) [] =
        (.error (.noCoincideConPatron 3), [⟨3, "Processing Code".toList, .fin 6, "12a456".toList⟩]) :=
  ⟨rfl, rfl, by decide, by rfl⟩

/-- C4 (amended): for every fixed-length definition with length `len` and every line with at
least `len` units from the pointer on, `parseField` reads no length mark and records a field
with length `len` and value exactly the `len` units at the pointer; it returns
pointer + `len` when the definition has no pattern or the pattern finds a match in the
value, and throws the pattern-mismatch error otherwise. -/
theorem fixed_field_extraction (defs : Defs) (i : Nat) (line : JsString) (p n : Nat)
    (acc : List ParsedField) (d : FieldDef) (hd : defs.get (.fin i) = some d)
    (hv : d.isVariable = false) (hlen : d.len = .fin n) (hfit : p + n ≤ line.length) :
    (parseField defs i line (.fin p) acc).2 = acc ++ [⟨i, d.label, .fin n, (line.drop p).take n⟩] ∧
      ((line.drop p).take n).length = n ∧
      ((∀ r, d.pattern = some r → r.test ((line.drop p).take n) = true) →
        (parseField defs i line (.fin p) acc).1 = .ok (.fin ((p + n : Nat) : Int))) ∧
      (∀ r, d.pattern = some r → r.test ((line.drop p).take n) = false →
        (parseField defs i line (.fin p) acc).1 = .error (.noCoincideConPatron i)) := by
  rw [parseField_fixed defs i line p n acc d hd hv hlen]
  refine ⟨rfl, ?_, ?_, ?_⟩
  · rw [List.length_take, List.length_drop]
    omega
  · intro hp
    cases hpat : d.pattern with
    | none => rfl
    | some r => simp [hp r hpat]
  · intro r hpat ht
    simp [hpat, ht]

/-- C4 (amended), instance: field 3 of fixed length 6 at the pointer 2 of `xx001000yy`. -/
theorem fixed_field_extraction_witness :
    (parseField [(.fin 3, processingCodeDef)] 3 "xx001000yy".toList (.fin 2) []).2 =
        [⟨3, "Processing Code".toList, .fin 6, "001000".toList⟩] ∧
      (parseField [(.fin 3, processingCodeDef)] 3 "xx001000yy".toList (.fin 2) []).1 =
        .ok (.fin 8) :=
  ⟨(fixed_field_extraction [(.fin 3, processingCodeDef)] 3 "xx001000yy".toList 2 6 []
      processingCodeDef rfl rfl rfl (by decide)).1,
    (fixed_field_extraction [(.fin 3, processingCodeDef)] 3 "xx001000yy".toList 2 6 []
      processingCodeDef rfl rfl rfl (by decide)).2.2.1 (by
        intro r hr
        obtain rfl : _ = r := Option.some.inj hr
        rfl)⟩

/-- C5, counterexample: a header whose message type is `ABCD` has the layout `ISO`, 9 digits,
4 arbitrary units, 16 hexadecimal digits, and the header check rejects it. -/
theorem header_with_letters_in_type_rejected :
    32 ≤ "ISO123456789ABCD0000000000000000".toList.length ∧
      headerShapeAnyType "ISO123456789ABCD0000000000000000".toList = true ∧
      headerPattern.test (substring "ISO123456789ABCD0000000000000000".toList (.fin 0) (.fin 32)) =
        false ∧
      parseInputLine [] "ISO123456789ABCD0000000000000000".toList = .error .cabeceraMalFormada :=
  ⟨by decide, by rfl, by rfl, by rfl⟩

/-- C5 (amended): for every line of at least 32 units, the header check of `parseInputLine`
accepts the line if and only if its first 32 units are `ISO`, then 13 decimal digits (9 of
the base header and 4 of the message type), then 16 hexadecimal digits; any other line is
rejected as a malformed header, and an accepted line never is. -/
theorem header_check_iff_shape (defs : Defs) (line : JsString) (hlen : 32 ≤ line.length) :
    (headerPattern.test (substring line (.fin 0) (.fin 32)) = true ↔ headerShape line = true) ∧
      (headerShape line = false → parseInputLine defs line = .error .cabeceraMalFormada) ∧
      (headerShape line = true → parseInputLine defs line ≠ .error .cabeceraMalFormada) := by
  refine ⟨by rw [header_test line hlen], ?_, ?_⟩
  · intro hs
    exact parseInputLine_error_of_run defs line _ _ (parseInputLine_bad_header defs line hlen hs)
  · intro hs hbad
    have hrun := parseInputLineRun_of_header defs line hlen hs
    unfold parseInputLine at hbad
    cases hr : parseInputLineRun defs line with
    | mk res acc =>
      cases res with
      | ok nx => simp [hr] at hbad
      | error e =>
        simp only [hr, Except.error.injEq] at hbad
        subst hbad
        rw [hr] at hrun
        split at hrun
        · split at hrun
          · simp at hrun
          · obtain ⟨i, hi⟩ := walkFields_error defs line _ _ _ _ _ (by rw [← hrun])
            rcases hi with hi | hi <;> cases hi
        · obtain ⟨i, hi⟩ := walkFields_error defs line _ _ _ _ _ (by rw [← hrun])
          rcases hi with hi | hi <;> cases hi

/-- C5 (amended), instance: a header with the numeric message type `0200`. -/
theorem header_check_iff_shape_witness :
    32 ≤ "ISO12345678902000000000000000000".toList.length ∧
      headerPattern.test (substring "ISO12345678902000000000000000000".toList (.fin 0) (.fin 32)) =
        true :=
  ⟨by decide, (header_check_iff_shape [] "ISO12345678902000000000000000000".toList
    (by decide)).1.2 (by rfl)⟩

/-- C6: for every line of at least 32 units whose first 3 units are not `ISO`, or whose units
3 to 11 are not all decimal digits, or whose units 16 to 31 contain a unit that is not a
hexadecimal digit, `parseInputLine` fails with the malformed-header error. -/
theorem malformed_header_rejected (defs : Defs) (line : JsString) (hlen : 32 ≤ line.length)
    (hbad : line.take 3 ≠ ['I', 'S', 'O'] ∨ ((line.drop 3).take 9).all isDecimalDigit = false ∨
      ((line.drop 16).take 16).all isHexChar = false) :
    parseInputLine defs line = .error .cabeceraMalFormada := by
  have hs : headerShape line = false := by
    unfold headerShape
    rcases hbad with h | h | h
    · simp [h]
    · simp only [h, Bool.and_false, Bool.false_and]
    · simp only [h, Bool.and_false]
  exact parseInputLine_error_of_run defs line _ _ (parseInputLine_bad_header defs line hlen hs)

/-- C6, instance: a line that starts with `ISX`. -/
theorem malformed_header_rejected_witness :
    32 ≤ "ISX12345678902000000000000000000".toList.length ∧
      parseInputLine [] "ISX12345678902000000000000000000".toList = .error .cabeceraMalFormada :=
  ⟨by decide, malformed_header_rejected [] "ISX12345678902000000000000000000".toList (by decide)
    (Or.inl (by decide))⟩

/-- C7: `parseInputLine` fails with a message-too-short error for every line shorter than 32
units, whatever its content, and for every line with a valid header whose first
primary-bitmap bit is `1` and whose length is under 48; in both cases no field has been
extracted. -/
theorem short_line_rejected (defs : Defs) (line : JsString) :
    (line.length < 32 →
      parseInputLine defs line = .error .mensajeMuyCorto ∧ (parseInputLineRun defs line).2 = []) ∧
    (32 ≤ line.length → headerPattern.test (substring line (.fin 0) (.fin 32)) = true →
      (hexa2bin ((line.drop 16).take 16))[0]? = some '1' → line.length < 48 →
      parseInputLine defs line = .error .mensajeMuyCortoBitmapSecundario ∧
        ParseError.isTooShort .mensajeMuyCortoBitmapSecundario = true ∧
        (parseInputLineRun defs line).2 = []) := by
  constructor
  · intro h
    have hrun : parseInputLineRun defs line = (.error .mensajeMuyCorto, []) := by
      simp [parseInputLineRun, h]
    exact ⟨parseInputLine_error_of_run defs line _ _ hrun, by rw [hrun]⟩
  · intro hlen hh hb h48
    rw [header_test line hlen] at hh
    have hrun : parseInputLineRun defs line = (.error .mensajeMuyCortoBitmapSecundario, []) := by
      rw [parseInputLineRun_of_header defs line hlen hh]
      simp [hb, h48]
    exact ⟨parseInputLine_error_of_run defs line _ _ hrun, rfl, by rw [hrun]⟩

/-- C7, instances: a line of 5 units, and a header with bit 1 set and nothing after it. -/
theorem short_line_rejected_witness :
    parseInputLine [] "ISO12".toList = .error .mensajeMuyCorto ∧
      parseInputLine [] "ISO12345678902008000000000000000".toList =
        .error .mensajeMuyCortoBitmapSecundario :=
  ⟨((short_line_rejected [] "ISO12".toList).1 (by decide)).1,
    ((short_line_rejected [] "ISO12345678902008000000000000000".toList).2 (by decide) (by rfl)
      (by rfl) (by decide)).1⟩

/-- C8, counterexample: the header sets bits 1 and 2 and the line stops after it; field 2
has no definition and no smaller position is set, yet the error is the one of the missing
secondary bitmap, not the unknown definition of field 2. -/
theorem unknown_field_masked_by_short_line :
    headerPattern.test (substring "ISO1234567890200C000000000000000".toList (.fin 0) (.fin 32)) =
        true ∧
      (combinedBitmap "ISO1234567890200C000000000000000".toList)[2 - 1]? = some '1' ∧
      Defs.get [] (.fin 2) = none ∧
      walkFields [] "ISO1234567890200C000000000000000".toList
        ('.' :: combinedBitmap "ISO1234567890200C000000000000000".toList)
        (List.range' 2 (2 - 2)) (.fin 48) [] = (.ok (.fin 48), []) ∧
      parseInputLine [] "ISO1234567890200C000000000000000".toList =
        .error .mensajeMuyCortoBitmapSecundario ∧
      parseInputLine [] "ISO1234567890200C000000000000000".toList ≠
        .error (.definicionNoEncontrada 2) :=
  ⟨by rfl, by rfl, by rfl, by rfl, by rfl, by
    intro h
    have e : parseInputLine [] "ISO1234567890200C000000000000000".toList =
        .error .mensajeMuyCortoBitmapSecundario := rfl
    rw [e] at h
    cases h⟩

/-- C8 (amended): for every line with a valid header that, when bit 1 is set, has the 48
units up to the end of the secondary bitmap, if some bit position `n ≥ 2` is set and the
registry has no definition for `n`, while the walk over the smaller positions extracts
every set one without error, `parseInputLine` fails with the unknown-field-definition error
that names `n`. -/
theorem unknown_definition_error (defs : Defs) (line : JsString) (n : Nat) (next : JsNum)
    (acc : List ParsedField) (hlen : 32 ≤ line.length)
    (hh : headerPattern.test (substring line (.fin 0) (.fin 32)) = true)
    (hsec : (combinedBitmap line)[0]? = some '1' → 48 ≤ line.length)
    (hn : 2 ≤ n) (hset : (combinedBitmap line)[n - 1]? = some '1')
    (hundef : defs.get (.fin n) = none)
    (hsmall : walkFields defs line ('.' :: combinedBitmap line) (List.range' 2 (n - 2))
      (if (combinedBitmap line)[0]? = some '1' then .fin 48 else .fin 32) [] = (.ok next, acc)) :
    parseInputLine defs line = .error (.definicionNoEncontrada n) := by
  rw [header_test line hlen] at hh
  have hrun := parseInputLineRun_walk defs line hlen hh hsec
  have hnL : n ≤ (combinedBitmap line).length := by
    by_contra hc
    rw [List.getElem?_eq_none_iff.2 (by omega)] at hset
    cases hset
  have hsplit : List.range' 2 ((combinedBitmap line).length - 1) =
      List.range' 2 (n - 2) ++ (n :: List.range' (n + 1) ((combinedBitmap line).length - n)) := by
    have h1 := List.range'_append 2 (n - 2) ((combinedBitmap line).length - n + 1) 1
    have h2 : 2 + 1 * (n - 2) = n := by omega
    have h3 : (combinedBitmap line).length - n + 1 + (n - 2) = (combinedBitmap line).length - 1 := by
      omega
    rw [h2, h3, List.range'_succ] at h1
    exact h1.symm
  have hchar : charAt ('.' :: combinedBitmap line) n = ['1'] := by
    rw [charAt_eq_one]
    obtain ⟨m, rfl⟩ : ∃ m, n = m + 1 := ⟨n - 1, by omega⟩
    simpa using hset
  rw [hsplit, walkFields_append, hsmall] at hrun
  simp only [walkFields, hchar, if_true, parseField_none defs n line next acc hundef] at hrun
  exact parseInputLine_error_of_run defs line _ _ hrun

/-- C8 (amended), instance: bits 2 and 3 are set, field 2 is defined and field 3 is not. -/
theorem unknown_definition_error_witness :
    parseInputLine [(.fin 2, panDef)] "ISO1234567890200600000000000000006123456001000".toList =
      .error (.definicionNoEncontrada 3) :=
  unknown_definition_error [(.fin 2, panDef)]
    "ISO1234567890200600000000000000006123456001000".toList 3 (.fin 40)
    [⟨2, "Primary Account Number".toList, .fin 6, "123456".toList⟩]
    (by decide) (by rfl) (by intro h; revert h; decide) (by decide) (by rfl) (by rfl) (by rfl)

/-- C9, counterexample: the pattern `[0-9]` does not match the whole value `a1b`, only its
middle unit, and `parseField` succeeds. -/
theorem pattern_matching_substring_accepted :
    Regex.fullMatch .digit "a1b".toList = false ∧
      parseField [(.fin 5, flagDef)] 5 "a1b".toList (.fin 0) [] =
        (.ok (.fin 3), [⟨5, "Flag".toList, .fin 3, "a1b".toList⟩]) :=
  ⟨by rfl, by rfl⟩

/-- C9 (amended): for every field whose definition carries a pattern, `parseField` succeeds
if and only if the pattern finds a match somewhere in the extracted value (the search of
`RegExp.prototype.test`), and otherwise fails with the pattern-mismatch error for that
field; when the pattern is anchored as `^q$` this is a match of the whole value by `q`. -/
theorem pattern_check_is_search (defs : Defs) (i : Nat) (line : JsString) (cp : JsNum)
    (acc : List ParsedField) (d : FieldDef) (r : Regex) (hd : defs.get (.fin i) = some d)
    (hp : d.pattern = some r) :
    ((∃ next, (parseField defs i line cp acc).1 = .ok next) ↔
        ∃ k, k ≤ (extractedValue d line cp).length ∧
          Regex.ends (extractedValue d line cp) r k ≠ []) ∧
      ((¬ ∃ k, k ≤ (extractedValue d line cp).length ∧
          Regex.ends (extractedValue d line cp) r k ≠ []) →
        (parseField defs i line cp acc).1 = .error (.noCoincideConPatron i)) ∧
      (∀ q, r = .seq .bol (.seq q .eol) →
        ((∃ next, (parseField defs i line cp acc).1 = .ok next) ↔
          q.fullMatch (extractedValue d line cp) = true)) := by
  have hpf := parseField_eq defs i line cp acc d hd
  rw [hp] at hpf
  have hiff : (∃ next, (parseField defs i line cp acc).1 = .ok next) ↔
      r.test (extractedValue d line cp) = true := by
    rw [hpf]
    cases ht : r.test (extractedValue d line cp) <;> simp [ht]
  refine ⟨?_, ?_, ?_⟩
  · rw [hiff, test_eq_true_iff]
  · intro hno
    rw [← test_eq_true_iff] at hno
    rw [hpf]
    simp [hno]
  · intro q hq
    rw [hiff, hq, test_anchored]

/-- C9 (amended), instance: the value `12a456` against `^[0-9]{1,19}$` fails with the
pattern-mismatch error of field 2. -/
theorem pattern_check_is_search_witness :
    (parseField [(.fin 2, panDef)] 2 "0612a456".toList (.fin 0) []).1 =
      .error (.noCoincideConPatron 2) :=
  (pattern_check_is_search [(.fin 2, panDef)] 2 "0612a456".toList (.fin 0) [] panDef
    (.seq .bol (.seq (.rep .digit 1 (some 19)) .eol)) rfl rfl).2.1 (by
      rw [← test_eq_true_iff]
      intro h
      revert h
      decide)

/-- C10, counterexample: field 4 has the fixed length 12 and only 5 units are left at the
pointer; `parseField` returns the advanced pointer and records the shortened value. -/
theorem under_length_read_returns_short_value :
    "12345".toList.length < 0 + 12 ∧
      parseField [(.fin 4, amountDef)] 4 "12345".toList (.fin 0) [] =
        (.ok (.fin 12), [⟨4, "Amount".toList, .fin 12, "12345".toList⟩]) :=
  ⟨by decide, by rfl⟩

/-- C10 (amended): `parseField` never fails with a message-too-short error. For every
extraction in which the line has fewer units left at the pointer than the length mark plus
the effective length require, it records as value the units that are left (a shortened
value) and, unless the pattern of the definition rejects that value, returns the pointer
advanced by the full length. -/
theorem under_length_read_not_rejected (defs : Defs) (i : Nat) (line : JsString) (p : Nat)
    (acc : List ParsedField) :
    (∀ cp e, (parseField defs i line cp acc).1 = .error e → e.isTooShort = false) ∧
      (∀ (d : FieldDef) (n : Nat), defs.get (.fin i) = some d → d.isVariable = false →
        d.len = .fin n → (line.drop p).length < n →
        (parseField defs i line (.fin p) acc).2 = acc ++ [⟨i, d.label, .fin n, line.drop p⟩] ∧
          ((∀ r, d.pattern = some r → r.test (line.drop p) = true) →
            (parseField defs i line (.fin p) acc).1 = .ok (.fin ((p + n : Nat) : Int)))) ∧
      (∀ (d : FieldDef) (k n : Nat), defs.get (.fin i) = some d → d.isVariable = true →
        d.lenOfLen = .fin k → isDecimalOf ((line.drop p).take k) n = true →
        (line.drop p).length < k + n →
        (parseField defs i line (.fin p) acc).2 =
            acc ++ [⟨i, d.label, .fin n, line.drop (p + k)⟩] ∧
          ((∀ r, d.pattern = some r → r.test (line.drop (p + k)) = true) →
            (parseField defs i line (.fin p) acc).1 = .ok (.fin ((p + k + n : Nat) : Int)))) := by
  refine ⟨?_, ?_, ?_⟩
  · intro cp e h
    rcases parseField_error defs i line cp acc e h with rfl | rfl <;> rfl
  · intro d n hd hv hlen hshort
    have htake : (line.drop p).take n = line.drop p :=
      List.take_of_length_le (by omega)
    rw [parseField_fixed defs i line p n acc d hd hv hlen, htake]
    refine ⟨rfl, ?_⟩
    intro hpat
    cases hq : d.pattern with
    | none => rfl
    | some r => simp [hpat r hq]
  · intro d k n hd hv hk hdigits hshort
    rw [List.length_drop] at hshort
    have htake : (line.drop (p + k)).take n = line.drop (p + k) :=
      List.take_of_length_le (by rw [List.length_drop]; omega)
    have hn := parseInt_of_isDecimalOf _ _ hdigits
    rw [parseField_variable defs i line p k n acc d hd hv hk hn, htake]
    refine ⟨rfl, ?_⟩
    intro hpat
    cases hq : d.pattern with
    | none => rfl
    | some r => simp [hpat r hq]

/-- C10 (amended), instance: the variable field 2 announces 6 units and 3 are left. -/
theorem under_length_read_not_rejected_witness :
    (parseField [(.fin 2, panDef)] 2 "06123".toList (.fin 0) []).2 =
        [⟨2, "Primary Account Number".toList, .fin 6, "123".toList⟩] ∧
      (parseField [(.fin 2, panDef)] 2 "06123".toList (.fin 0) []).1 = .ok (.fin 8) :=
  ⟨((under_length_read_not_rejected [(.fin 2, panDef)] 2 "06123".toList 0 []).2.2 panDef 2 6
      rfl rfl rfl (by rfl) (by decide)).1,
    ((under_length_read_not_rejected [(.fin 2, panDef)] 2 "06123".toList 0 []).2.2 panDef 2 6
      rfl rfl rfl (by rfl) (by decide)).2 (by
        intro r hr
        obtain rfl : _ = r := Option.some.inj hr
        rfl)⟩

/-- C11, counterexample: field 3 fails on its pattern after field 2 has been extracted; the
failing call of `parseField` leaves the list one field longer than it found it. -/
theorem failing_parseField_has_pushed :
    parseField [(.fin 2, panDef), (.fin 3, processingCodeDef)] 3 "0612345612a456".toList (.fin 8)
        [⟨2, "Primary Account Number".toList, .fin 6, "123456".toList⟩] =
      (.error (.noCoincideConPatron 3),
        [⟨2, "Primary Account Number".toList, .fin 6, "123456".toList⟩,
          ⟨3, "Processing Code".toList, .fin 6, "12a456".toList⟩]) :=
  by rfl

/-- C11 (amended): all or nothing per line. For every line with a valid header (and the 48
units of the secondary bitmap when bit 1 is set), if the walk has extracted the fields of
the set positions below `n` and the extraction of the present field `n` fails (unknown
definition or pattern mismatch), `parseInputLine` yields only that error and no parsed
field, whatever the fields extracted before; a call of `parseField` that fails for an
unknown definition leaves the accumulated list as it was, and one that fails on the
pattern has appended the failing field to it before throwing. -/
theorem failed_line_yields_only_error (defs : Defs) (line : JsString) (n : Nat) (next : JsNum)
    (acc : List ParsedField) (e : ParseError) (hlen : 32 ≤ line.length)
    (hh : headerPattern.test (substring line (.fin 0) (.fin 32)) = true)
    (hsec : (combinedBitmap line)[0]? = some '1' → 48 ≤ line.length)
    (hn : 2 ≤ n) (hset : (combinedBitmap line)[n - 1]? = some '1')
    (hsmall : walkFields defs line ('.' :: combinedBitmap line) (List.range' 2 (n - 2))
      (if (combinedBitmap line)[0]? = some '1' then .fin 48 else .fin 32) [] = (.ok next, acc))
    (hfail : (parseField defs n line next acc).1 = .error e) :
    parseInputLine defs line = .error e ∧
      (e = .definicionNoEncontrada n ∨ e = .noCoincideConPatron n) ∧
      (∀ (i : Nat) (cp : JsNum) (acc2 : List ParsedField) (e2 : ParseError),
        (parseField defs i line cp acc2).1 = .error e2 →
        (e2 = .definicionNoEncontrada i ∧ defs.get (.fin i) = none ∧
            (parseField defs i line cp acc2).2 = acc2) ∨
          (e2 = .noCoincideConPatron i ∧
            ∃ f : ParsedField, f.fieldNo = i ∧
              (parseField defs i line cp acc2).2 = acc2 ++ [f])) := by
  refine ⟨?_, parseField_error defs n line next acc e hfail, ?_⟩
  · rw [header_test line hlen] at hh
    have hrun := parseInputLineRun_walk defs line hlen hh hsec
    have hnL : n ≤ (combinedBitmap line).length := by
      by_contra hc
      rw [List.getElem?_eq_none_iff.2 (by omega)] at hset
      cases hset
    have hsplit : List.range' 2 ((combinedBitmap line).length - 1) =
        List.range' 2 (n - 2) ++ (n :: List.range' (n + 1) ((combinedBitmap line).length - n)) := by
      have h1 := List.range'_append 2 (n - 2) ((combinedBitmap line).length - n + 1) 1
      have h2 : 2 + 1 * (n - 2) = n := by omega
      have h3 : (combinedBitmap line).length - n + 1 + (n - 2) =
          (combinedBitmap line).length - 1 := by omega
      rw [h2, h3, List.range'_succ] at h1
      exact h1.symm
    have hchar : charAt ('.' :: combinedBitmap line) n = ['1'] := by
      rw [charAt_eq_one]
      obtain ⟨m, rfl⟩ : ∃ m, n = m + 1 := ⟨n - 1, by omega⟩
      simpa using hset
    rw [hsplit, walkFields_append, hsmall] at hrun
    cases hpf : parseField defs n line next acc with
    | mk res acc1 =>
      rw [hpf] at hfail
      simp only at hfail
      subst hfail
      simp only [walkFields, hchar, if_true, hpf] at hrun
      exact parseInputLine_error_of_run defs line _ _ hrun
  · intro i cp acc2 e2 h
    cases hd : defs.get (.fin i) with
    | none =>
      rw [parseField_none defs i line cp acc2 hd] at h ⊢
      simp only [Except.error.injEq] at h
      exact Or.inl ⟨h.symm, rfl, rfl⟩
    | some d =>
      rw [parseField_eq defs i line cp acc2 d hd] at h ⊢
      right
      refine ⟨?_, _, rfl, rfl⟩
      cases hp : d.pattern with
      | none => simp [hp] at h
      | some r =>
        simp only [hp] at h
        split at h
        · simp at h
        · simp only [Except.error.injEq] at h
          exact h.symm

/-- C11 (amended), instance: field 2 is extracted, field 3 fails on its pattern, and the
line yields the error alone. -/
theorem failed_line_yields_only_error_witness :
    parseInputLine [(.fin 2, panDef), (.fin 3, processingCodeDef)]
        "ISO123456789020060000000000000000612345612a456".toList =
      .error (.noCoincideConPatron 3) :=
  (failed_line_yields_only_error [(.fin 2, panDef), (.fin 3, processingCodeDef)]
    "ISO123456789020060000000000000000612345612a456".toList 3 (.fin 40)
    [⟨2, "Primary Account Number".toList, .fin 6, "123456".toList⟩] (.noCoincideConPatron 3)
    (by decide) (by rfl) (by intro h; revert h; decide) (by decide) (by rfl) (by rfl)
    (by rfl)).1

/-- C12, counterexample: the schema line of field 2 splits into 8 fields on its commas,
one of them inside `{1,19}`, and the constructor rejects it. -/
theorem schema_line_with_comma_in_pattern_rejected :
    (split ',' "2,PAN,^[0-9]\x7b1,19\x7d$,19,1,1,Primary Account Number".toList).length = 8 ∧
      FieldDef.new sampleRegExp sampleCeilLog10
          "2,PAN,^[0-9]\x7b1,19\x7d$,19,1,1,Primary Account Number".toList =
        .error .formatoIncorrecto ∧
      readDefinitions sampleRegExp sampleCeilLog10
          "2,PAN,^[0-9]\x7b1,19\x7d$,19,1,1,Primary Account Number".toList [] =
        (.error .formatoIncorrecto, []) :=
  ⟨by rfl, by rfl, by rfl⟩

/-- C12 (amended): loading the schema line `2,PAN,^[0-9]{1,19}$,19,1,1,Primary Account Number`
fails with the format error, the comma of `{1,19}` giving 8 fields; the line with a pattern
free of commas, `2,PAN,^[0-9]+$,19,1,1,Primary Account Number`, loads whenever the runtime
accepts the pattern, and yields a definition with id 2, variable length, the label
`Primary Account Number` and `lenOfLen` 2. -/
theorem schema_line_of_field_two (newRegExp : JsString → Option Regex)
    (ceilLog10Large : Nat → JsNum) (r : Regex)
    (hr : newRegExp "^[0-9]+$".toList = some r) :
    FieldDef.new newRegExp ceilLog10Large "2,PAN,^[0-9]\x7b1,19\x7d$,19,1,1,Primary Account Number".toList =
        .error .formatoIncorrecto ∧
      FieldDef.new newRegExp ceilLog10Large "2,PAN,^[0-9]+$,19,1,1,Primary Account Number".toList =
        .ok { id := .fin 2, name := "PAN".toList, regex := "^[0-9]+$".toList, len := .fin 19,
              isVariable := true, numeric := true, label := "Primary Account Number".toList,
              pattern := some r, lenOfLen := .fin 2 } := by
  constructor
  · exact FieldDef.new_format_error newRegExp ceilLog10Large _ (by decide)
  · have e : FieldDef.new newRegExp ceilLog10Large "2,PAN,^[0-9]+$,19,1,1,Primary Account Number".toList =
        match newRegExp "^[0-9]+$".toList with
        | some pattern =>
          .ok { id := .fin 2, name := "PAN".toList, regex := "^[0-9]+$".toList, len := .fin 19,
                isVariable := true, numeric := true, label := "Primary Account Number".toList,
                pattern := some pattern, lenOfLen := .fin 2 }
        | none => .error .patronInvalido := by rfl
    rw [e, hr]

/-- C12 (amended), instance: the line with the pattern `^[0-9]+$`, loaded into an empty
registry. -/
theorem schema_line_of_field_two_witness :
    (FieldDef.new sampleRegExp sampleCeilLog10 "2,PAN,^[0-9]+$,19,1,1,Primary Account Number".toList).map
        (fun d => (d.id, d.isVariable, d.label, d.lenOfLen)) =
      .ok (.fin 2, true, "Primary Account Number".toList, .fin 2) := by
  rw [(schema_line_of_field_two sampleRegExp sampleCeilLog10 _ (by rfl)).2]
  rfl

/-- C13: for every schema line that is neither a comment nor blank and whose split on commas
gives a number of fields other than 6 or 7, the construction of the `FieldDef` fails with
the format error, `readDefinitions` fails, and the registry is left as the lines before
had made it: no definition for that line is added. -/
theorem malformed_schema_line_rejected (newRegExp : JsString → Option Regex)
    (ceilLog10Large : Nat → JsNum)
    (data : JsString) (defs : Defs) (before after : List JsString) (line : JsString)
    (hsplit : split '\n' data = before ++ line :: after)
    (hline : ¬ (line.head? = some '#' ∨ trim line = []))
    (hcount : (split ',' line).length ≠ 6 ∧ (split ',' line).length ≠ 7) :
    FieldDef.new newRegExp ceilLog10Large line = .error .formatoIncorrecto ∧
      (∃ e, (readDefinitions newRegExp ceilLog10Large data defs).1 = .error e) ∧
      (readDefinitions newRegExp ceilLog10Large data defs).2 = (readDefinitionsLoop newRegExp ceilLog10Large before defs).2 ∧
      ((readDefinitionsLoop newRegExp ceilLog10Large before defs).1 = .ok () →
        (readDefinitions newRegExp ceilLog10Large data defs).1 = .error .formatoIncorrecto) := by
  have hnew := FieldDef.new_format_error newRegExp ceilLog10Large line hcount
  have hstep : ∀ d, readDefinitionsLoop newRegExp ceilLog10Large (line :: after) d =
      (.error .formatoIncorrecto, d) := by
    intro d
    simp only [readDefinitionsLoop, hline, if_false, hnew]
  unfold readDefinitions
  rw [hsplit, readDefinitionsLoop_append]
  refine ⟨hnew, ?_, ?_, ?_⟩
  · cases hb : readDefinitionsLoop newRegExp ceilLog10Large before defs with
    | mk res d =>
      cases res with
      | error e => exact ⟨e, rfl⟩
      | ok u => exact ⟨.formatoIncorrecto, by simp only [hstep]⟩
  · cases hb : readDefinitionsLoop newRegExp ceilLog10Large before defs with
    | mk res d =>
      cases res with
      | error e => rfl
      | ok u => simp only [hstep]
  · intro hok
    cases hb : readDefinitionsLoop newRegExp ceilLog10Large before defs with
    | mk res d =>
      cases res with
      | error e => simp [hb] at hok
      | ok u => simp only [hstep]

/-- C13, instance: the line `bad,line` behind a comment and the line of field 3; the loader
fails and the registry holds field 3 alone. -/
theorem malformed_schema_line_rejected_witness :
    (readDefinitions sampleRegExp sampleCeilLog10
        "# fields\n3,PCODE,^[0-9]\x7b6\x7d$,6,0,1,Processing Code\nbad,line\n4,AMOUNT,,12,0,1,Amount".toList
        []).1 = .error .formatoIncorrecto :=
  (malformed_schema_line_rejected sampleRegExp sampleCeilLog10
    "# fields\n3,PCODE,^[0-9]\x7b6\x7d$,6,0,1,Processing Code\nbad,line\n4,AMOUNT,,12,0,1,Amount".toList
    [] ["# fields".toList, "3,PCODE,^[0-9]\x7b6\x7d$,6,0,1,Processing Code".toList]
    ["4,AMOUNT,,12,0,1,Amount".toList] "bad,line".toList (by rfl) (by decide) (by decide)).2.2.2
    (by rfl)

/-- C14, failing input: the constructor sets `lenOfLen` to `⌈log10 (len + 1)⌉`, the least `k`
with `10 ^ k ≥ len + 1`, for every positive `len` below `10 ^ 14` (2 for 19, 2 for 99, 3 for
100); on the schema line `9,BIG,,1000000000000000,0,0`, of `len = 10 ^ 15`, it sets
`lenOfLen` to 15 while `⌈log10 (len + 1)⌉` is 16. -/
theorem lenOfLen_ceil_log10_fails_at_ten_pow_fifteen (newRegExp : JsString → Option Regex)
    (ceilLog10Large : Nat → JsNum) :
    (∀ (defLine : JsString) (d : FieldDef) (n : Nat),
        FieldDef.new newRegExp ceilLog10Large defLine = .ok d → d.len = .fin (n : Int) →
        0 < n → n < 10 ^ 14 →
        ∃ k : Nat, d.lenOfLen = .fin (k : Int) ∧ k = Nat.clog 10 (n + 1) ∧ n + 1 ≤ 10 ^ k ∧
          (∀ j, n + 1 ≤ 10 ^ j → k ≤ j) ∧
          (n = 19 → k = 2) ∧ (n = 99 → k = 2) ∧ (n = 100 → k = 3)) ∧
      (∃ d : FieldDef,
        FieldDef.new newRegExp ceilLog10Large "9,BIG,,1000000000000000,0,0".toList = .ok d ∧
          d.len = .fin (10 ^ 15) ∧ d.lenOfLen = .fin 15 ∧ Nat.clog 10 (10 ^ 15 + 1) = 16 ∧
          ¬ (10 ^ 15 + 1 ≤ 10 ^ 15)) := by
  constructor
  · intro defLine d n hnew hlen hpos hn
    have hl := FieldDef.new_lenOfLen newRegExp ceilLog10Large defLine d n hnew hlen hn
    obtain ⟨h1, h2⟩ := ceilLog10Nat_spec (n + 1)
    refine ⟨ceilLog10Nat (n + 1), hl, ceilLog10Nat_eq_clog (n + 1), h1, ?_, ?_, ?_, ?_⟩
    · intro j hj
      by_contra hc
      have := h2 j (by omega)
      omega
    · rintro rfl
      rfl
    · rintro rfl
      rfl
    · rintro rfl
      rfl
  · exact ⟨_, rfl, rfl, rfl, clog_ten_pow_fifteen_succ, by norm_num⟩

/-- C14, instance: the schema line of a field with `len` 99. -/
theorem lenOfLen_ceil_log10_fails_at_ten_pow_fifteen_witness :
    ∃ k : Nat, JsNum.fin 2 = .fin (k : Int) ∧ k = Nat.clog 10 (99 + 1) :=
  ((lenOfLen_ceil_log10_fails_at_ten_pow_fifteen sampleRegExp sampleCeilLog10).1
    "48,PRIV,,99,1,0,Private Data".toList
    { id := .fin 48, name := "PRIV".toList, regex := [], len := .fin 99, isVariable := true,
      numeric := false, label := "Private Data".toList, pattern := none, lenOfLen := .fin 2 }
    99 (by rfl) rfl (by decide) (by norm_num)).imp (fun _ h => ⟨h.1, h.2.1⟩)

/-- C15, counterexample: for `len = 9` the constructor computes `lenOfLen = 1`, and writing
`len + 1 = 10` takes 2 decimal digits. -/
theorem lenOfLen_differs_from_digits_of_successor :
    (FieldDef.new sampleRegExp sampleCeilLog10 "7,TIME,,9,0,1".toList).map
        (fun d => (d.len, d.lenOfLen)) = .ok (.fin 9, .fin 1) ∧
      decimalDigitCount (9 + 1) = 2 :=
  ⟨by rfl, by norm_num [decimalDigitCount]⟩

/-- C15 (amended): for every positive integer `fixedLength` below `10 ^ 14`, `lenOfLen` equals
the number of decimal digits needed to write `fixedLength` itself in base 10 (not
`fixedLength + 1`). -/
theorem lenOfLen_is_digit_count (newRegExp : JsString → Option Regex)
    (ceilLog10Large : Nat → JsNum) (defLine : JsString)
    (d : FieldDef) (n : Nat) (hnew : FieldDef.new newRegExp ceilLog10Large defLine = .ok d)
    (hlen : d.len = .fin (n : Int)) (hpos : 0 < n) (hn : n < 10 ^ 14) :
    d.lenOfLen = .fin (decimalDigitCount n : Int) := by
  rw [FieldDef.new_lenOfLen newRegExp ceilLog10Large defLine d n hnew hlen hn]
  obtain ⟨h1, h2⟩ := ceilLog10Nat_spec (n + 1)
  have hn0 : n ≠ 0 := by omega
  have hk : ceilLog10Nat (n + 1) = Nat.log 10 n + 1 := by
    apply Nat.le_antisymm
    · by_contra hc
      have := h2 (Nat.log 10 n + 1) (by omega)
      have := Nat.lt_pow_succ_log_self (by norm_num : 1 < 10) n
      omega
    · have hlt : n < 10 ^ ceilLog10Nat (n + 1) := by omega
      have := (Nat.lt_pow_iff_log_lt (by norm_num : 1 < 10) hn0).1 hlt
      omega
  rw [hk, decimalDigitCount, Nat.digits_len 10 n (by norm_num) hn0]

/-- C15 (amended), instance: the schema line of a field with `len` 9, a number of 1
digit. -/
theorem lenOfLen_is_digit_count_witness :
    JsNum.fin 1 = .fin (decimalDigitCount 9 : Int) :=
  lenOfLen_is_digit_count sampleRegExp sampleCeilLog10 "7,TIME,,9,0,1".toList
    { id := .fin 7, name := "TIME".toList, regex := [], len := .fin 9, isVariable := false,
      numeric := true, label := "TIME".toList, pattern := none, lenOfLen := .fin 1 }
    9 (by rfl) rfl (by decide) (by norm_num)

/-- C16: for every schema text that `readDefinitions` loads and in which two well-formed
lines define the same id, the later one being the last to define it, the registry built
maps that id to the definition of the later line, and every id has the same definition as
if the earlier line were absent. -/
theorem later_definition_replaces_earlier (newRegExp : JsString → Option Regex)
    (ceilLog10Large : Nat → JsNum)
    (data : JsString) (defs : Defs) (first between last : List JsString)
    (earlier later : JsString) (f1 f2 : FieldDef)
    (hsplit : split '\n' data = first ++ earlier :: (between ++ later :: last))
    (hearlier : ¬ (earlier.head? = some '#' ∨ trim earlier = []))
    (hlater : ¬ (later.head? = some '#' ∨ trim later = []))
    (hf1 : FieldDef.new newRegExp ceilLog10Large earlier = .ok f1)
    (hf2 : FieldDef.new newRegExp ceilLog10Large later = .ok f2) (hid : f1.id = f2.id)
    (hlast : ∀ l, l ∈ last → ¬ (l.head? = some '#' ∨ trim l = []) →
      ∀ f, FieldDef.new newRegExp ceilLog10Large l = .ok f → f.id ≠ f2.id)
    (hok : (readDefinitions newRegExp ceilLog10Large data defs).1 = .ok ()) :
    (readDefinitions newRegExp ceilLog10Large data defs).2.get f2.id = some f2 ∧
      (readDefinitionsLoop newRegExp ceilLog10Large (first ++ (between ++ later :: last)) defs).1 = .ok () ∧
      ∀ key, (readDefinitions newRegExp ceilLog10Large data defs).2.get key =
        (readDefinitionsLoop newRegExp ceilLog10Large (first ++ (between ++ later :: last)) defs).2.get key := by
  unfold readDefinitions at hok ⊢
  rw [hsplit] at hok ⊢
  obtain ⟨hA, eA⟩ := readDefinitionsLoop_ok_append newRegExp ceilLog10Large first _ defs hok
  rw [eA] at hok ⊢
  rw [readDefinitionsLoop_cons_ok newRegExp ceilLog10Large earlier _ _ f1 hearlier hf1] at hok ⊢
  obtain ⟨hB, eB⟩ := readDefinitionsLoop_ok_append newRegExp ceilLog10Large between _ _ hok
  rw [eB] at hok ⊢
  rw [readDefinitionsLoop_cons_ok newRegExp ceilLog10Large later _ _ f2 hlater hf2] at hok ⊢
  -- the load without the earlier line
  have eA2 := readDefinitionsLoop_append newRegExp ceilLog10Large first (between ++ later :: last) defs
  have hAform : readDefinitionsLoop newRegExp ceilLog10Large first defs =
      (.ok (), (readDefinitionsLoop newRegExp ceilLog10Large first defs).2) := by
    cases h : readDefinitionsLoop newRegExp ceilLog10Large first defs with
    | mk res dA =>
      rw [h] at hA
      simp only at hA
      rw [hA]
  rw [hAform] at eA2
  simp only at eA2
  rw [eA2]
  -- the lines between the two, from registries that differ at the id only
  have hagreeB := readDefinitionsLoop_agree newRegExp ceilLog10Large (fun k => k ≠ f2.id) between
    (((readDefinitionsLoop newRegExp ceilLog10Large first defs).2).set f1.id f1)
    (readDefinitionsLoop newRegExp ceilLog10Large first defs).2
    (fun k hk => Defs.get_set_other _ _ _ _ (by rw [hid]; exact hk))
  have eB2 := readDefinitionsLoop_append newRegExp ceilLog10Large between (later :: last)
    (readDefinitionsLoop newRegExp ceilLog10Large first defs).2
  have hBform : readDefinitionsLoop newRegExp ceilLog10Large between (readDefinitionsLoop newRegExp ceilLog10Large first defs).2 =
      (.ok (), (readDefinitionsLoop newRegExp ceilLog10Large between
        (readDefinitionsLoop newRegExp ceilLog10Large first defs).2).2) := by
    cases h : readDefinitionsLoop newRegExp ceilLog10Large between (readDefinitionsLoop newRegExp ceilLog10Large first defs).2 with
    | mk res dB =>
      have := hagreeB.1
      rw [hB, h] at this
      simp only at this
      rw [← this]
  rw [hBform] at eB2
  simp only at eB2
  rw [eB2, readDefinitionsLoop_cons_ok newRegExp ceilLog10Large later _ _ f2 hlater hf2]
  -- the later line makes the two registries agree everywhere
  have hagreeC := readDefinitionsLoop_agree newRegExp ceilLog10Large (fun _ => True) last
    (((readDefinitionsLoop newRegExp ceilLog10Large between
      (((readDefinitionsLoop newRegExp ceilLog10Large first defs).2).set f1.id f1)).2).set f2.id f2)
    (((readDefinitionsLoop newRegExp ceilLog10Large between (readDefinitionsLoop newRegExp ceilLog10Large first defs).2).2).set
      f2.id f2)
    (by
      intro k _
      rw [Defs.get_set, Defs.get_set]
      by_cases hk : k = f2.id
      · simp [hk]
      · simp only [hk, if_false]
        exact hagreeB.2 k hk)
  refine ⟨?_, ?_, ?_⟩
  · exact readDefinitionsLoop_keeps newRegExp ceilLog10Large f2.id f2 last _ (Defs.get_set_self _ _ _) hlast
  · rw [← hagreeC.1]
    exact hok
  · intro key
    exact hagreeC.2 key trivial

/-- C16, instance: two lines define field 2; the registry holds the later definition. -/
theorem later_definition_replaces_earlier_witness :
    (readDefinitions sampleRegExp sampleCeilLog10
        "2,PAN,^[0-9]+$,19,1,1,Primary Account Number\n4,AMOUNT,,12,0,1,Amount\n2,PAN2,,16,1,1".toList
        []).2.get (.fin 2) =
      some { id := .fin 2, name := "PAN2".toList, regex := [], len := .fin 16, isVariable := true,
             numeric := true, label := "PAN2".toList, pattern := none, lenOfLen := .fin 2 } :=
  (later_definition_replaces_earlier sampleRegExp sampleCeilLog10
    "2,PAN,^[0-9]+$,19,1,1,Primary Account Number\n4,AMOUNT,,12,0,1,Amount\n2,PAN2,,16,1,1".toList
    [] [] ["4,AMOUNT,,12,0,1,Amount".toList] []
    "2,PAN,^[0-9]+$,19,1,1,Primary Account Number".toList "2,PAN2,,16,1,1".toList
    { id := .fin 2, name := "PAN".toList, regex := "^[0-9]+$".toList, len := .fin 19,
      isVariable := true, numeric := true, label := "Primary Account Number".toList,
      pattern := some (.seq .bol (.seq (.rep .digit 1 none) .eol)), lenOfLen := .fin 2 }
    { id := .fin 2, name := "PAN2".toList, regex := [], len := .fin 16, isVariable := true,
      numeric := true, label := "PAN2".toList, pattern := none, lenOfLen := .fin 2 }
    (by rfl) (by decide) (by decide) (by rfl) (by rfl) rfl
    (by intro l hl; cases hl) (by rfl)).1

/-- C17: for every text of hexadecimal digits of either case, `hexa2bin` returns a text of
`0` and `1` of exactly 4 times the length of its argument, whose group `i` of 4 units is
the binary numeral, zero padded and most significant bit first, of the digit `i`; `5` gives
`0101`, `F` gives `1111`, and 16 digits give 64 bits. -/
theorem hexa2bin_of_hex_digits (hex : JsString) (hall : hex.all isHexChar = true) :
    (hexa2bin hex).length = 4 * hex.length ∧
      (hexa2bin hex).all (fun b => decide (b = '0' ∨ b = '1')) = true ∧
      hexa2bin hex = hex.flatMap (fun c => nibbleBits (hexValue c)) ∧
      (∀ (i : Nat) (c : Char), hex[i]? = some c →
        ((hexa2bin hex).drop (4 * i)).take 4 = nibbleBits (hexValue c)) ∧
      (hex.length = 16 → (hexa2bin hex).length = 64) := by
  have hflat : hexa2bin hex = hex.flatMap (fun c => nibbleBits (hexValue c)) := by
    induction hex with
    | nil => rfl
    | cons a t ih =>
      simp only [List.all_cons, Bool.and_eq_true] at hall
      rw [hexa2bin_cons, ih hall.2, expandUnit_of_hex a hall.1, List.flatMap_cons]
  refine ⟨hexa2bin_length hex, ?_, hflat, ?_, ?_⟩
  · rw [hflat, List.all_eq_true]
    intro b hb
    rw [List.mem_flatMap] at hb
    obtain ⟨c, -, hbc⟩ := hb
    simp only [nibbleBits, List.map_cons, List.map_nil, List.mem_cons, List.mem_singleton,
      List.not_mem_nil, or_false] at hbc
    rcases hbc with h | h | h | h <;> subst h <;> split <;> simp
  · intro i c hi
    have hc : isHexChar c = true := by
      rw [List.all_eq_true] at hall
      exact hall c (List.getElem?_mem hi)
    rw [hexa2bin_group hex i c hi, expandUnit_of_hex c hc]
  · intro h16
    rw [hexa2bin_length, h16]

/-- C17, instance: the digits `5` and `F`, and the 16 digits of a primary bitmap. -/
theorem hexa2bin_of_hex_digits_witness :
    hexa2bin "5F".toList = "01011111".toList ∧
      (hexa2bin "C000000000a00001".toList).length = 64 :=
  ⟨(hexa2bin_of_hex_digits "5F".toList (by decide)).2.2.1,
    (hexa2bin_of_hex_digits "C000000000a00001".toList (by decide)).2.2.2.2 (by decide)⟩

/-- C18, counterexample: the length mark of the variable field 44 reads `-9`; `parseField`
is called with the pointer 32 and returns the pointer 25, and the value it records starts
inside the header. -/
theorem negative_length_moves_pointer_back :
    parseField [(.fin 44, additionalDataDef)] 44 "ISO12345678902000000000000100000-9".toList
        (.fin 32) [] =
      (.ok (.fin 25), [⟨44, "Additional Data".toList, .fin (-9), "0100000-9".toList⟩]) ∧
    parseInputLine [(.fin 44, additionalDataDef)] "ISO12345678902000000000000100000-9".toList =
      .ok [⟨44, "Additional Data".toList, .fin (-9), "0100000-9".toList⟩] :=
  ⟨by rfl, by rfl⟩

/-- C18 (amended): during a parse by `parseInputLine` the pointer starts at 32, or at 48 with
a secondary bitmap. Every call of `parseField` that is made with an integer pointer and
returns with an effective length that is a non-negative integer (the `len` of a fixed
field, or a length mark made of decimal digits behind a non-negative `lenOfLen`) returns an
integer pointer greater than or equal to the pointer passed in. In a walk in which every
variable definition has a non-negative integer `lenOfLen` and every field recorded so far
has a non-negative integer length, every call is made with an integer pointer that is not
below the start, and returns one that is not below the pointer passed in. -/
theorem pointer_advances (defs : Defs) (line : JsString) :
    (∀ (i : Nat) (p : Int) (acc : List ParsedField) (next : JsNum) (d : FieldDef) (k e : Nat),
        defs.get (.fin i) = some d → (d.isVariable = true → d.lenOfLen = .fin k) →
        effectiveLength d line (.fin p) = .fin e →
        (parseField defs i line (.fin p) acc).1 = .ok next →
        ∃ q : Int, next = .fin q ∧ p ≤ q) ∧
      (∀ (d : FieldDef) (p k n : Nat), d.isVariable = true → d.lenOfLen = .fin k →
        isDecimalOf ((line.drop p).take k) n = true →
        effectiveLength d line (.fin p) = .fin n) ∧
      (32 ≤ line.length → headerPattern.test (substring line (.fin 0) (.fin 32)) = true →
        ((combinedBitmap line)[0]? = some '1' → 48 ≤ line.length) →
        parseInputLineRun defs line =
          walkFields defs line ('.' :: combinedBitmap line)
            (List.range' 2 ((combinedBitmap line).length - 1))
            (if (combinedBitmap line)[0]? = some '1' then .fin 48 else .fin 32) []) ∧
      ((∀ i d, defs.get (.fin i) = some d → d.isVariable = true →
          ∃ k : Nat, d.lenOfLen = .fin (k : Int)) →
        ∀ (fb : JsString) (start : Int) (earlier : List Nat) (i : Nat) (cp next : JsNum)
          (acc1 acc2 : List ParsedField),
          walkFields defs line fb earlier (.fin start) [] = (.ok cp, acc1) →
          parseField defs i line cp acc1 = (.ok next, acc2) →
          (∀ f, f ∈ acc2 → ∃ e : Nat, f.length = .fin (e : Int)) →
          ∃ c q : Int, cp = .fin c ∧ next = .fin q ∧ start ≤ c ∧ c ≤ q) := by
  refine ⟨?_, ?_, ?_, ?_⟩
  · intro i p acc next d k e hd hk he hret
    rw [parseField_eq defs i line (.fin p) acc d hd, he] at hret
    have hnext : next = valueStart d (.fin p) + .fin e := by
      cases hp : d.pattern with
      | none =>
        simp only [hp, Except.ok.injEq] at hret
        exact hret.symm
      | some r =>
        simp only [hp] at hret
        split at hret
        · simp only [Except.ok.injEq] at hret
          exact hret.symm
        · simp at hret
    cases hv : d.isVariable with
    | true =>
      refine ⟨p + k + e, ?_, by omega⟩
      rw [hnext]
      simp [valueStart, hv, hk hv]
    | false =>
      refine ⟨p + e, ?_, by omega⟩
      rw [hnext]
      simp [valueStart, hv]
  · intro d p k n hv hk hdig
    have e1 : substring line (.fin (p : Int)) (.fin ((p : Int) + (k : Int))) = (line.drop p).take k :=
      substring_nat line p k
    simp only [effectiveLength, hv, if_true, hk, JsNum.fin_add_fin, e1]
    exact parseInt_of_isDecimalOf _ _ hdig
  · intro hlen hh hsec
    rw [header_test line hlen] at hh
    exact parseInputLineRun_walk defs line hlen hh hsec
  · intro hreg fb start earlier i cp next acc1 acc2 hwalk hcall hnat
    obtain ⟨m, hm⟩ := parseField_extends defs i line cp acc1
    rw [hcall] at hm
    simp only at hm
    obtain ⟨c, hc, hle⟩ := walkFields_pointer defs line fb hreg earlier start [] acc1 cp hwalk
      (fun f hf => hnat f (by
        rw [hm]
        exact List.mem_append_left _ (by simpa using hf)))
    subst hc
    obtain ⟨q, hq, hle2⟩ := parseField_pointer defs i line c acc1 acc2 next (hreg i) hcall
      (fun f hf => hnat f (List.mem_of_mem_drop hf))
    exact ⟨c, q, rfl, hq, hle, hle2⟩

/-- C18 (amended), instance: in the parse of a line with the fields 2 and 3, the call for
field 3 is made with the pointer 40, not below the start 32, and returns 46. -/
theorem pointer_advances_witness :
    ∃ c q : Int, JsNum.fin 40 = .fin c ∧ JsNum.fin 46 = .fin q ∧ (32 : Int) ≤ c ∧ c ≤ q :=
  (pointer_advances [(.fin 2, panDef), (.fin 3, processingCodeDef)]
    "ISO1234567890200600000000000000006123456001000".toList).2.2.2
    (by
      intro i d h hv
      unfold Defs.get at h
      cases hf : List.find? (fun e => decide (e.1 = JsNum.fin (i : Int)))
          [(JsNum.fin 2, panDef), (JsNum.fin 3, processingCodeDef)] with
      | none => simp [hf] at h
      | some e =>
        rw [hf] at h
        simp only [Option.map_some', Option.some.injEq] at h
        have hmem := List.mem_of_find?_eq_some hf
        simp only [List.mem_cons, List.mem_singleton, List.not_mem_nil, or_false] at hmem
        rcases hmem with rfl | rfl
        · subst h
          exact ⟨2, rfl⟩
        · subst h
          exact ⟨1, rfl⟩)
    ('.' :: combinedBitmap "ISO1234567890200600000000000000006123456001000".toList) 32 [2] 3
    (.fin 40) (.fin 46) [⟨2, "Primary Account Number".toList, .fin 6, "123456".toList⟩]
    [⟨2, "Primary Account Number".toList, .fin 6, "123456".toList⟩,
      ⟨3, "Processing Code".toList, .fin 6, "001000".toList⟩]
    (by rfl) (by rfl)
    (by
      intro f hf
      simp only [List.mem_cons, List.mem_singleton, List.not_mem_nil, or_false] at hf
      rcases hf with rfl | rfl <;> exact ⟨6, rfl⟩)

/-- C19, failing input: for every positive `len` below `10 ^ 14` the constructed definition
has `10 ^ lenOfLen > len`, and every length `m ≤ len` has a zero padded numeral of exactly
`lenOfLen` digits; on the schema line `9,BIG,,1000000000000000,1,0`, a variable field of
`len = 10 ^ 15`, `lenOfLen` is 15, `10 ^ 15 > len` fails and no numeral of 15 digits
denotes the length `10 ^ 15`. -/
theorem length_mark_too_narrow_at_ten_pow_fifteen (newRegExp : JsString → Option Regex)
    (ceilLog10Large : Nat → JsNum) :
    (∀ (defLine : JsString) (d : FieldDef) (n : Nat),
        FieldDef.new newRegExp ceilLog10Large defLine = .ok d → d.len = .fin (n : Int) →
        0 < n → n < 10 ^ 14 →
        ∃ k : Nat, d.lenOfLen = .fin (k : Int) ∧ n < 10 ^ k ∧
          ∀ m, m ≤ n → (zeroPadded k m).length = k ∧ isDecimalOf (zeroPadded k m) m = true) ∧
      (∃ d : FieldDef,
        FieldDef.new newRegExp ceilLog10Large "9,BIG,,1000000000000000,1,0".toList = .ok d ∧
          d.isVariable = true ∧ d.len = .fin (10 ^ 15) ∧ d.lenOfLen = .fin 15 ∧
          ¬ (10 ^ 15 < 10 ^ 15) ∧
          ∀ text : JsString, text.length = 15 → isDecimalOf text (10 ^ 15) = false) := by
  constructor
  · intro defLine d n hnew hlen hpos hn
    have hl := FieldDef.new_lenOfLen newRegExp ceilLog10Large defLine d n hnew hlen hn
    obtain ⟨h1, h2⟩ := ceilLog10Nat_spec (n + 1)
    refine ⟨ceilLog10Nat (n + 1), hl, by omega, ?_⟩
    intro m hm
    obtain ⟨z1, z2, z3⟩ := zeroPadded_spec (ceilLog10Nat (n + 1)) m
    have hk : 0 < ceilLog10Nat (n + 1) := by
      by_contra hc
      have h0 : ceilLog10Nat (n + 1) = 0 := by omega
      rw [h0] at h1
      simp at h1
      omega
    refine ⟨z1, ?_⟩
    rw [isDecimalOf_iff]
    refine ⟨?_, z2, ?_⟩
    · intro hnil
      rw [hnil] at z1
      simp at z1
      omega
    · rw [z3]
      exact Nat.mod_eq_of_lt (by omega)
  · refine ⟨_, rfl, rfl, rfl, rfl, by norm_num, ?_⟩
    intro text hlen
    cases hdec : isDecimalOf text (10 ^ 15) with
    | false => rfl
    | true =>
      obtain ⟨-, hall, hval⟩ := (isDecimalOf_iff text (10 ^ 15)).1 hdec
      have := digitsValue_lt text hall
      rw [hlen, hval] at this
      omega

/-- C19, instance: with `len` 19 the length 6 is written `06` on the 2 digits of the
length mark. -/
theorem length_mark_too_narrow_at_ten_pow_fifteen_witness :
    ∃ k : Nat, JsNum.fin 2 = .fin (k : Int) ∧ 19 < 10 ^ k ∧
      isDecimalOf (zeroPadded k 6) 6 = true :=
  ((length_mark_too_narrow_at_ten_pow_fifteen sampleRegExp sampleCeilLog10).1
    "2,PAN,^[0-9]+$,19,1,1,Primary Account Number".toList
    { id := .fin 2, name := "PAN".toList, regex := "^[0-9]+$".toList, len := .fin 19,
      isVariable := true, numeric := true, label := "Primary Account Number".toList,
      pattern := some (.seq .bol (.seq (.rep .digit 1 none) .eol)), lenOfLen := .fin 2 }
    19 (by rfl) rfl (by decide) (by norm_num)).imp
    (fun _ h => ⟨h.1, h.2.1, (h.2.2 6 (by decide)).2⟩)

/-- C20: the secondary bitmap is not validated as hexadecimal. For every line with a valid
header whose first bitmap bit is `1` and whose length is at least 48, the only errors of
`parseInputLine` are those of the extraction of a field (unknown definition, pattern
mismatch); each unit at the offsets 32 to 47 contributes exactly 4 positions to the
combined bitmap, which has 128 positions, and a unit that is no hexadecimal digit
contributes no set bit. -/
theorem secondary_bitmap_not_validated (defs : Defs) (line : JsString)
    (hlen : 48 ≤ line.length)
    (hh : headerPattern.test (substring line (.fin 0) (.fin 32)) = true)
    (hb : (hexa2bin ((line.drop 16).take 16))[0]? = some '1') :
    (∀ e, parseInputLine defs line = .error e →
        ∃ i, e = .definicionNoEncontrada i ∨ e = .noCoincideConPatron i) ∧
      (combinedBitmap line).length = 128 ∧
      (∀ (j : Nat) (c : Char), j < 16 → (line)[32 + j]? = some c →
        ((combinedBitmap line).drop (64 + 4 * j)).take 4 = expandUnit c ∧
          (expandUnit c).length = 4 ∧
          (isHexChar c = false → ∀ t, t < 4 → (combinedBitmap line)[64 + 4 * j + t]? ≠ some '1')) := by
  have h32 : 32 ≤ line.length := by omega
  rw [header_test line h32] at hh
  have hcomb : combinedBitmap line =
      hexa2bin ((line.drop 16).take 16) ++ hexa2bin ((line.drop 32).take 16) := by
    simp [combinedBitmap, hb]
  have hp := primary_length line h32
  refine ⟨?_, ?_, ?_⟩
  · intro e he
    have hrun := parseInputLineRun_walk defs line h32 hh (fun _ => hlen)
    unfold parseInputLine at he
    cases hr : parseInputLineRun defs line with
    | mk res acc =>
      cases res with
      | ok nx => simp [hr] at he
      | error e2 =>
        simp only [hr, Except.error.injEq] at he
        subst he
        rw [hr] at hrun
        exact walkFields_error defs line _ _ _ _ _ (by rw [← hrun])
  · rw [hcomb, List.length_append, hp, secondary_length line hlen]
  · intro j c hj hc
    have hsec : ((line.drop 32).take 16)[j]? = some c := by
      rw [List.getElem?_take_of_lt hj, List.getElem?_drop]
      exact hc
    have hgroup : ((combinedBitmap line).drop (64 + 4 * j)).take 4 = expandUnit c := by
      rw [hcomb, ← hp, List.drop_append, hexa2bin_group _ j c hsec]
    refine ⟨hgroup, expandUnit_length c, ?_⟩
    intro hnot t ht hone
    have hget : (((combinedBitmap line).drop (64 + 4 * j)).take 4)[t]? = some '1' := by
      rw [List.getElem?_take_of_lt ht, List.getElem?_drop]
      exact hone
    rw [hgroup, expandUnit_of_not_hex c hnot] at hget
    interval_cases t <;> simp at hget

set_option maxRecDepth 4000 in
/-- C20, instance: a secondary bitmap made of the letter `z` sets no bit, and the line
parses into the single field 2 announced by the primary bitmap. -/
theorem secondary_bitmap_not_validated_witness :
    parseInputLine [(.fin 2, panDef)]
        "ISO1234567890200C000000000000000zzzzzzzzzzzzzzzz06123456".toList =
      .ok [⟨2, "Primary Account Number".toList, .fin 6, "123456".toList⟩] ∧
    (combinedBitmap "ISO1234567890200C000000000000000zzzzzzzzzzzzzzzz06123456".toList).length =
      128 :=
  ⟨rfl, (secondary_bitmap_not_validated [(.fin 2, panDef)]
    "ISO1234567890200C000000000000000zzzzzzzzzzzzzzzz06123456".toList (by decide) (by rfl)
    (by rfl)).2.1⟩

end IsoParser
